import Mathlib

/-!
Verification of the tournament bracket engine of `services/bracket_service.py`
(with the pure helpers shared with `domain/models.py`).

The persisted `event_match` table is modelled as a `List Match`; the `id`
field plays the role of the auto-increment primary key `event_match_id`
(fresh ids are `maxId + 1`; rows are never deleted, so this coincides with
the auto-increment discipline).  An operation that can raise returns
`Option String × List Match`: the first component is the raised error
message (`none` = no exception), the second the table contents afterwards.
The datastore commits each statement on its own (autocommit), so the table
state survives a raise — which is why the state is returned even on error.
Timestamps, `metadata` JSON blobs and `reported_by_account_id` are not
modelled: no statement proved here mentions them.
-/

/-- A row of the `event_match` table (the fields the engine reads/writes).
`bracket` is one of the strings W, L, GF; `status` is pending or completed;
`team2 = none` is a BYE slot; `winner`/`loser` are NULLable columns. -/
structure Match where
  id : Nat
  bracket : String
  round_no : Nat
  match_no : Nat
  team1 : Nat
  team2 : Option Nat
  status : String
  winner : Option Nat
  loser : Option Nat
deriving Repr, DecidableEq

/-- ASCII `str.lower()` (the engine only ever lowercases ASCII status and
format strings). -/
def pyLowerChar (c : Char) : Char :=
  if 'A' ≤ c ∧ c ≤ 'Z' then Char.ofNat (c.toNat + 32) else c

/-- ASCII `str.upper()` (match codes are ASCII). -/
def pyUpperChar (c : Char) : Char :=
  if 'a' ≤ c ∧ c ≤ 'z' then Char.ofNat (c.toNat - 32) else c

def pyLower (s : String) : String := ⟨s.data.map pyLowerChar⟩

/-- `next_power_of_two` from the source, on Python ints: fuel-free reading is
`if n <= 1: return 1; p = 1; while p < n: p <<= 1; return p`.  The while
loop is modelled structurally with a fuel argument so that the definition
evaluates by kernel reduction; `nptLoop_congr` below shows any fuel at
least `(n - p).toNat` (the loop runs at most that often) gives the same
answer, so the fuel `n.toNat` used in `next_power_of_two` never runs out. -/
def nptLoopF : Nat → Int → Nat → Nat
  | 0, _, p => p
  | f + 1, n, p => if (p : Int) < n then nptLoopF f n (2 * p) else p

def next_power_of_two (n : Int) : Int :=
  if n ≤ 1 then 1 else (nptLoopF n.toNat n 1 : Nat)

/-- `seeded_positions` from the source.  The recursion halves `n`, so fuel
`n` always suffices; `[s, n + 1 - s for s in prev]` is the `bind`. -/
def seededPositionsF : Nat → Nat → List Nat
  | 0, _ => [1]
  | _ + 1, 0 => [1]
  | _ + 1, 1 => [1]
  | _ + 1, 2 => [1, 2]
  | f + 1, n => (seededPositionsF f (n / 2)).flatMap fun s => [s, n + 1 - s]

def seeded_positions (n : Nat) : List Nat := seededPositionsF n n


/-- `int(math.log2 b)`: for the bracket sizes the engine feeds it (small
powers of two, and in adversarial states small even numbers) the float
computation is exact enough that this is the integer floor of log2,
modelled with fuel (the recursion halves its argument, so fuel `n`
suffices; see `intLog2F_congr`). -/
def intLog2F : Nat → Nat → Nat
  | 0, _ => 0
  | f + 1, n => if 2 ≤ n then intLog2F f (n / 2) + 1 else 0

def int_log2 (n : Nat) : Nat := intLog2F n n


/-- The auto-increment discipline of the `event_match` primary key: the next
id is one past the largest id present (rows are never deleted). -/
def maxId (ms : List Match) : Nat := ms.foldr (fun m a => max m.id a) 0

def nextId (ms : List Match) : Nat := maxId ms + 1

/-- `BracketService._group`: the matches of one `(bracket, round_no)` cell,
sorted by `match_no` (Python's stable `list.sort`). -/
def group (ms : List Match) (b : String) (r : Nat) : List Match :=
  List.insertionSort (fun x y => x.match_no ≤ y.match_no)
    (ms.filter fun m => m.bracket = b ∧ m.round_no = r)

/-- `BracketService._all_completed`: nonempty and every status lowercases to
completed. -/
def allCompleted (ms : List Match) : Prop :=
  ms ≠ [] ∧ ∀ m ∈ ms, pyLower m.status = "completed"

instance (ms : List Match) : Decidable (allCompleted ms) := by
  unfold allCompleted; infer_instance

/-- `BracketService._winners_in_order`: recorded winner if set, otherwise
`t1 if t2 is None else t1` — which is `team1` either way. -/
def winnersInOrder (ms : List Match) : List Nat :=
  ms.map fun m =>
    match m.winner with
    | none => if m.team2 = none then m.team1 else m.team1
    | some w => w

/-- `BracketService._losers_in_order`: skip BYE rows, keep recorded losers. -/
def losersInOrder (ms : List Match) : List Nat :=
  ms.filterMap fun m => if m.team2 = none then none else m.loser

/-- The row `_safe_create_match` inserts: `create_match` inserts a Pending
row, and when `t2` is NULL `_set_bye_winner` immediately marks it completed
with `t1` as winner and no loser.  Modelled from the spec for the parts the
schema (not in the source tree) provides: newly inserted rows default to
status pending, and `(bracket, round_no, match_no)` is unique per event. -/
def mkMatch (ms : List Match) (b : String) (r mno t1 : Nat) (t2 : Option Nat) : Match :=
  { id := nextId ms, bracket := b, round_no := r, match_no := mno
    team1 := t1, team2 := t2
    status := if t2 = none then "completed" else "pending"
    winner := if t2 = none then some t1 else none
    loser := none }

/-- `BracketService._safe_create_match`: insert, treating a uniqueness
conflict on `(bracket, round_no, match_no)` (aiomysql.IntegrityError) as a
benign no-op; a BYE row (`t2 = None`) is auto-completed on the spot. -/
def safeCreate (ms : List Match) (b : String) (r mno t1 : Nat) (t2 : Option Nat) : List Match :=
  if ms.any fun m => m.bracket = b ∧ m.round_no = r ∧ m.match_no = mno then ms
  else ms ++ [mkMatch ms b r mno t1 t2]

/-- The pairing loop shared by `_advance_single_elim`'s round creation and
`_create_round_from_pairs`: walk the entrants two at a time, an odd
leftover entrant gets a BYE in the second slot. -/
def pairsLoop (b : String) (r : Nat) : List Match → List Nat → Nat → List Match
  | ms, [], _ => ms
  | ms, [t1], mno => safeCreate ms b r mno t1 none
  | ms, t1 :: t2 :: rest, mno => pairsLoop b r (safeCreate ms b r mno t1 (some t2)) rest (mno + 1)

/-- `BracketService._create_round_from_pairs` (note the early return on an
empty entrant list). -/
def createRoundFromPairs (ms : List Match) (b : String) (r : Nat) (entrants : List Nat) : List Match :=
  if entrants = [] then ms else pairsLoop b r ms entrants 1

/-- `BracketService._zip_cross`: index-aligned pairing of the two lists,
padding the shorter side with BYEs and always keeping a real entrant in
the first slot. -/
def zipCross : List Nat → List Nat → List (Nat × Option Nat)
  | [], [] => []
  | [], t2 :: rs => (t2, none) :: zipCross [] rs
  | t1 :: ls, [] => (t1, none) :: zipCross ls []
  | t1 :: ls, t2 :: rs => (t1, some t2) :: zipCross ls rs

/-- The creation loop of `_create_round_from_cross` (always bracket L). -/
def crossLoop (r : Nat) : List Match → List (Nat × Option Nat) → Nat → List Match
  | ms, [], _ => ms
  | ms, (t1, t2) :: rest, mno => crossLoop r (safeCreate ms "L" r mno t1 t2) rest (mno + 1)

/-- `BracketService._create_round_from_cross`. -/
def createRoundFromCross (ms : List Match) (r : Nat) (entrants : List (Nat × Option Nat)) : List Match :=
  crossLoop r ms entrants 1

/-- Number of Winners-bracket rows at round `r` or later; part of the loop
measure showing the `while True` of `_advance_single_elim` terminates. -/
def countWfrom (ms : List Match) (r : Nat) : Nat :=
  (ms.filter fun m => m.bracket = "W" ∧ r ≤ m.round_no).length

/-- Largest Winners-bracket round present. -/
def maxW (ms : List Match) : Nat :=
  (ms.filter fun m => m.bracket = "W").foldr (fun m a => max m.round_no a) 0

/-- Loop measure for the `while True` of `_advance_single_elim`: strictly
decreases on every iteration (`seFuel_exists_lt` / `seFuel_create_lt`). -/
def seFuel (ms : List Match) (r : Nat) : Nat := countWfrom ms r + (maxW ms + 1 - r)

/-- The `while True` loop of `_advance_single_elim`, structurally recursive
on a fuel argument so it evaluates by kernel reduction.  One unfolding is
one loop iteration: stop when the current round is absent or incomplete or
has at most one winner; otherwise move to the next round, creating it by
pairing consecutive winners when it does not exist yet.  `seLoopF_congr`
proves any fuel above `seFuel` computes the loop's unique fixed point, so
the fuel used in `seLoop` below is never exhausted and the definition
agrees with the unbounded Python loop. -/
def seLoopF : Nat → List Match → Nat → List Match
  | 0, ms, _ => ms
  | f + 1, ms, r =>
    let curr := group ms "W" r
    if ¬ allCompleted curr then ms
    else
      let winners := winnersInOrder curr
      if winners.length ≤ 1 then ms
      else if group ms "W" (r + 1) ≠ [] then seLoopF f ms (r + 1)
      else seLoopF f (pairsLoop "W" (r + 1) ms winners 1) (r + 1)

def seLoop (ms : List Match) (r : Nat) : List Match := seLoopF (seFuel ms r + 1) ms r

/-- `BracketService._advance_single_elim`: return immediately when no
Winners-bracket round exists (`wb_rounds` empty), else run the round walk
from round 1. -/
def advanceSingleElim (ms : List Match) : List Match :=
  if ms.all fun m => m.bracket ≠ "W" then ms else seLoop ms 1

/-- One iteration body of the `for wb_round in range(2, max(2, n))` loop of
`_advance_double_elim`, after its three `break` guards have passed:
materialise the Losers cross round `2*wb_round - 2` (winners of the
previous Losers round against the losers dropped by Winners round
`wb_round`) when absent, then the pure round `2*wb_round - 1` when the
cross round is complete and the pure round absent. -/
def deIter (ms : List Match) (wb_round : Nat) : List Match :=
  let lb_cross := 2 * wb_round - 2
  let ms2 := if group ms "L" lb_cross = [] then
      createRoundFromCross ms lb_cross
        (zipCross (winnersInOrder (group ms "L" (lb_cross - 1)))
          (losersInOrder (group ms "W" wb_round)))
    else ms
  let lb_pure := lb_cross + 1
  let lb_cross_matches := group ms2 "L" lb_cross
  if allCompleted lb_cross_matches ∧ group ms2 "L" lb_pure = [] then
    createRoundFromPairs ms2 "L" lb_pure (winnersInOrder lb_cross_matches)
  else ms2

/-- The `for wb_round in range(2, max(2, n))` loop of `_advance_double_elim`
(fuel = number of remaining iterations, so `deLoopF (n - 2) ms 2` is the
whole loop): run `deIter` for each Winners round in order, stopping at
the first unmet dependency (`break`). -/
def deLoopF : Nat → List Match → Nat → List Match
  | 0, ms, _ => ms
  | k + 1, ms, wb_round =>
    if ¬ allCompleted (group ms "W" wb_round) then ms
    else if group ms "L" (2 * wb_round - 2 - 1) = [] then ms
    else if ¬ allCompleted (group ms "L" (2 * wb_round - 2 - 1)) then ms
    else deLoopF k (deIter ms wb_round) (wb_round + 1)

/-- The Grand-Finals part of the `_advance_double_elim` tail, once the last
Losers cross round `2*n - 2` exists (`ms4` in the source): require it
complete, create `GF-01` (Winners champion vs Losers champion) when
absent, and create the `GF-02` reset when `GF-01` is completed, won by
the Losers champion, and no reset exists yet. -/
def deFinalTail (ms4 : List Match) (wb_champ n : Nat) : List Match :=
  let lb_final := group ms4 "L" (2 * n - 2)
  if ¬ allCompleted lb_final then ms4
  else
    let lb_champ := (winnersInOrder lb_final).headD 0
    let ms5 := if group ms4 "GF" 1 = [] then
        safeCreate ms4 "GF" 1 1 wb_champ (some lb_champ)
      else ms4
    let gf_round := group ms5 "GF" 1
    let gf1 := gf_round.find? fun m => m.match_no = 1
    let gf2 := gf_round.find? fun m => m.match_no = 2
    match gf1 with
    | none => ms5
    | some g1 =>
      if pyLower g1.status = "completed" ∧ g1.winner = some lb_champ ∧ gf2 = none then
        safeCreate ms5 "GF" 1 2 wb_champ (some lb_champ)
      else ms5

/-- The tail of `_advance_double_elim` after the `wb_round` loop: Winners
final → last Losers cross round (created from the last pure-round winner
against the Winners final's loser, with the documented fallback when the
Winners final was a BYE) → the Grand-Finals step above.  `headD` renders
Python's `[0]` indexing, guarded by the nonemptiness the source
establishes before each use; the default is never read. -/
def deFinal (ms : List Match) (n : Nat) : List Match :=
  if ¬ allCompleted (group ms "W" n) then ms
  else
    let wb_champ := (winnersInOrder (group ms "W" n)).headD 0
    let wb_final_losers := losersInOrder (group ms "W" n)
    if group ms "L" (2 * n - 3) = [] then ms
    else if ¬ allCompleted (group ms "L" (2 * n - 3)) then ms
    else
      let lb_last_pure_winner := (winnersInOrder (group ms "L" (2 * n - 3))).headD 0
      let wb_final_loser := wb_final_losers.headD lb_last_pure_winner
      let ms4 := if group ms "L" (2 * n - 2) = [] then
          safeCreate ms "L" (2 * n - 2) 1 lb_last_pure_winner (some wb_final_loser)
        else ms
      deFinalTail ms4 wb_champ n

/-- `BracketService._advance_double_elim`: Winners walk first, then Losers
round 1 from the Winners round 1 losers, then the `wb_round` loop, then
the finals tail.  A two-team bracket short-circuits (no Losers bracket). -/
def advanceDoubleElim (ms : List Match) : List Match :=
  let ms1 := advanceSingleElim ms
  let wb_r1 := group ms1 "W" 1
  if wb_r1 = [] then ms1
  else
    let bracket_size := 2 * wb_r1.length
    if bracket_size ≤ 2 then ms1
    else
      let n := int_log2 bracket_size
      let ms2 := if allCompleted wb_r1 ∧ group ms1 "L" 1 = [] then
          createRoundFromPairs ms1 "L" 1 (losersInOrder wb_r1)
        else ms1
      let ms3 := deLoopF (n - 2) ms2 2
      deFinal ms3 n

/-- `BracketService.advance` (the event row is modelled by its `format`
string, lowercased as in the source; a missing event is not modelled —
every claim is about an existing event). -/
def advance (fmt : String) (ms : List Match) : Option String × List Match :=
  if pyLower fmt = "single_elim" then (none, advanceSingleElim ms)
  else if pyLower fmt = "double_elim" then (none, advanceDoubleElim ms)
  else (some "Unsupported event format.", ms)

/-- `EventRepo.set_match_result`: mark completed and record winner/loser. -/
def setMatchResult (ms : List Match) (mid w l : Nat) : List Match :=
  ms.map fun m => if m.id = mid then
    { m with status := "completed", winner := some w, loser := some l } else m

/-- `BracketService._set_bye_winner`: mark completed with the sole occupant
as winner and a NULL loser. -/
def setByeWinner (ms : List Match) (mid w : Nat) : List Match :=
  ms.map fun m => if m.id = mid then
    { m with status := "completed", winner := some w, loser := none } else m

/-- `BracketService.record_result`: fetch by id; silently return when
already completed; auto-resolve a pending BYE row; otherwise require the
winner to be one of the two occupants, record the result and advance. -/
def record_result (fmt : String) (ms : List Match) (mid winner : Nat) :
    Option String × List Match :=
  match ms.find? fun m => m.id = mid with
  | none => (some "Match not found.", ms)
  | some m =>
    if pyLower m.status = "completed" then (none, ms)
    else
      match m.team2 with
      | none => (none, setByeWinner ms mid m.team1)
      | some t2 =>
        if winner ≠ m.team1 ∧ winner ≠ t2 then
          (some "winner_event_team_id must be team1 or team2 for this match.", ms)
        else
          advance fmt (setMatchResult ms mid winner (if winner = m.team1 then t2 else m.team1))

/-- `_validate_seeds`: every team has a seed, seeds unique and contiguous
1..N.  A team is `(seed?, event_team_id)`.  (The source sorts the team
list by seed first; the checks and the seed→id mapping below are
order-independent, so the sort is omitted.) -/
def validateSeeds (teams : List (Option Nat × Nat)) : Option String :=
  if teams.any fun t => t.1 = none then
    some "All event teams must have a seed before creating a bracket."
  else
    let seeds := teams.map fun t => t.1.getD 0
    if ¬ seeds.Nodup then
      some "Duplicate seeds detected in event_team. Seeds must be unique."
    else if seeds.min? ≠ some 1 ∨ seeds.max? ≠ some seeds.length then
      some "Seeds must be contiguous starting at 1 (1..N)."
    else none

/-- The seed → event_team_id dictionary built by `_validate_seeds` (keys are
unique once validation has passed, so first-match lookup equals the dict). -/
def seedToIdMap (teams : List (Option Nat × Nat)) : List (Nat × Nat) :=
  teams.map fun t => (t.1.getD 0, t.2)

def lookupSeed (sti : List (Nat × Nat)) (s : Nat) : Option Nat :=
  (sti.find? fun p => p.1 = s).map Prod.snd

/-- The seeded-position list walked two at a time (`range(0, bracket_size,
2)` with `pos[i]`, `pos[i+1]`).  A trailing singleton would be an
IndexError in Python; it cannot occur because `seeded_positions` of an
even power of two has even length. -/
def chunk2 : List Nat → List (Nat × Nat)
  | [] => []
  | [_] => []
  | a :: b :: rest => (a, b) :: chunk2 rest

def pairRound1Go (sti : List (Nat × Nat)) (tc : Nat) :
    List (Nat × Nat) → Except String (List (Nat × Option Nat))
  | [] => .ok []
  | (s1, s2) :: rest =>
    let t1 := if s1 ≤ tc then lookupSeed sti s1 else none
    let t2 := if s2 ≤ tc then lookupSeed sti s2 else none
    match t1 with
    | none => .error "Invalid seeding state: missing team for a required seed."
    | some u1 => (pairRound1Go sti tc rest).map fun l => (u1, t2) :: l

/-- `_pair_round1_by_standard_seeding`: any seed above the entrant count is
a BYE; a missing left occupant is a fatal seeding error.  (The seed
numbers the source also returns only feed the metadata blob and are
dropped here.) -/
def pairRound1 (sti : List (Nat × Nat)) (tc bracket_size : Nat) :
    Except String (List (Nat × Option Nat)) :=
  pairRound1Go sti tc (chunk2 (seeded_positions bracket_size))

/-- The Winners-round-1 creation loop of `create_bracket`: a plain insert
(no IntegrityError guard — the table was checked empty) followed by
`_set_bye_winner` when the second slot is a BYE. -/
def createW1 : List Match → List (Nat × Option Nat) → Nat → List Match
  | ms, [], _ => ms
  | ms, (t1, t2) :: rest, mno =>
    let mid := nextId ms
    let ms2 := ms ++ [{ id := mid, bracket := "W", round_no := 1, match_no := mno,
                        team1 := t1, team2 := t2, status := "pending",
                        winner := none, loser := none }]
    let ms3 := if t2 = none then setByeWinner ms2 mid t1 else ms2
    createW1 ms3 rest (mno + 1)

/-- `BracketService.create_bracket`: refuse when matches already exist,
validate the teams, create Winners round 1, run one `advance` pass (which
is where an unsupported format raises, before the function's own trailing
format check is reached).  The event row is modelled by its `format`
string and its team list. -/
def create_bracket (fmt : String) (teams : List (Option Nat × Nat)) (ms : List Match) :
    Option String × List Match :=
  if ms ≠ [] then (some "Matches already exist for this event.", ms)
  else
    let f := pyLower fmt
    if teams = [] then (some "No event teams found. Generate/lock teams first.", ms)
    else
      match validateSeeds teams with
      | some e => (some e, ms)
      | none =>
        let sti := seedToIdMap teams
        let team_count := teams.length
        let bracket_size := (next_power_of_two team_count).toNat
        match pairRound1 sti team_count bracket_size with
        | .error e => (some e, ms)
        | .ok pairs =>
          let ms1 := createW1 ms pairs 1
          match advance fmt ms1 with
          | (some e, ms2) => (some e, ms2)
          | (none, ms2) =>
            if f = "single_elim" ∨ f = "double_elim" then (none, ms2)
            else
              (some "Unsupported event format in DB (expected single_elim or double_elim).", ms2)

/-- Python `str.strip()` whitespace (the ASCII portion; match codes are
ASCII). -/
def isPySpace (c : Char) : Bool :=
  c == ' ' || c == '\t' || c == '\n' || c == '\r' || c == Char.ofNat 11 || c == Char.ofNat 12

def pyStrip (cs : List Char) : List Char :=
  ((cs.dropWhile isPySpace).reverse.dropWhile isPySpace).reverse

def isDig (c : Char) : Bool := '0' ≤ c && c ≤ '9'

/-- Python `int` on a digit string. -/
def charsVal (cs : List Char) : Nat := cs.foldl (fun a c => 10 * a + (c.toNat - 48)) 0

/-- Decimal rendering of a positive natural, least significant digit
extracted first (fuel `n` suffices since the value is divided by 10 each
step; see `natCharsF_val`). -/
def natCharsF : Nat → Nat → List Char
  | 0, _ => []
  | f + 1, n => if n = 0 then [] else natCharsF f (n / 10) ++ [Char.ofNat (n % 10 + 48)]

/-- Decimal rendering of a natural (Python `str(n)` / `f"{n}"`). -/
def natChars (n : Nat) : List Char := if n = 0 then ['0'] else natCharsF n n

/-- Python `f"{m:02d}"` for a nonnegative int. -/
def twoDigit (m : Nat) : List Char := if m < 10 then '0' :: natChars m else natChars m

/-- The match-code rendering of `_safe_create_match` (and
`domain/models.match_code`): `f"{bracket}{round_no}-{match_no:02d}"` for
Winners/Losers, `f"GF-{match_no:02d}"` otherwise. -/
def encodeChars (b : String) (r m : Nat) : List Char :=
  if b = "W" ∨ b = "L" then b.data ++ natChars r ++ '-' :: twoDigit m
  else 'G' :: 'F' :: '-' :: twoDigit m

def match_code (b : String) (r m : Nat) : String := ⟨encodeChars b r m⟩

/-- The `([WL])(\d+)-(\d+)$` part of `MATCH_CODE_RE` plus the `< 1` checks
of `parse_match_code` (`\d+` is greedy, so it matches the maximal digit
run, which must be followed by the dash). -/
def parseTailWL (bk : String) (cs : List Char) : Option (String × Nat × Nat) :=
  let rds := cs.takeWhile isDig
  match cs.dropWhile isDig with
  | '-' :: mds =>
    if rds ≠ [] ∧ mds ≠ [] ∧ mds.all isDig then
      let match_no := charsVal mds
      if match_no < 1 then none
      else
        let round_no := charsVal rds
        if round_no < 1 then none
        else some (bk, round_no, match_no)
    else none
  | _ => none

/-- The `GF-(\d+)$` alternative of `MATCH_CODE_RE` (round fixed at 1). -/
def parseTailGF (cs : List Char) : Option (String × Nat × Nat) :=
  match cs with
  | '-' :: mds =>
    if mds ≠ [] ∧ mds.all isDig then
      let match_no := charsVal mds
      if match_no < 1 then none else some ("GF", 1, match_no)
    else none
  | _ => none

/-- `parse_match_code`: strip and uppercase, then match
`^(?:(GF)|([WL])(\d+))-(\d+)$`.  The source raises `BracketStateError`
with a descriptive message on every rejection; all rejecting branches are
collapsed to `none` here (no claim distinguishes the messages). -/
def parseMatchCode (cs : List Char) : Option (String × Nat × Nat) :=
  match (pyStrip cs).map pyUpperChar with
  | 'G' :: 'F' :: rest => parseTailGF rest
  | 'W' :: rest => parseTailWL "W" rest
  | 'L' :: rest => parseTailWL "L" rest
  | _ => none

def parse_match_code (s : String) : Option (String × Nat × Nat) := parseMatchCode s.data


/-- The BYE discipline of §3/§4.3 of the design: a row whose second slot is
empty is never left Pending — it carries its sole occupant as winner, a
lowercased completed status, and no loser. -/
def goodBye (m : Match) : Prop :=
  m.team2 = none →
    pyLower m.status = "completed" ∧ m.winner = some m.team1 ∧ m.loser = none

instance (m : Match) : Decidable (goodBye m) := by
  unfold goodBye; infer_instance

/-- An outward engine call on an existing event: speculative `advance`, a
result report, or a (necessarily refused) second `create_bracket`. -/
inductive Op where
  | adv : Op
  | rep : Nat → Nat → Op
  | mk : List (Option Nat × Nat) → Op

/-- Run one outward call against the stored match table, keeping the state
it leaves behind. -/
def applyOp (fmt : String) (s : List Match) : Op → List Match
  | .adv => (advance fmt s).2
  | .rep mid w => (record_result fmt s mid w).2
  | .mk teams => (create_bracket fmt teams s).2

/-- Three seeded entrants (seed, event_team_id) — the spec's single-elim
BYE scenario. -/
def teams3 : List (Option Nat × Nat) := [(some 1, 101), (some 2, 102), (some 3, 103)]

/-- Four seeded entrants — the spec's double-elim Grand-Finals scenario. -/
def teams4 : List (Option Nat × Nat) :=
  [(some 1, 201), (some 2, 202), (some 3, 203), (some 4, 204)]

/-- Seven seeded entrants — a non-power-of-two double-elim field. -/
def teams7 : List (Option Nat × Nat) :=
  [(some 1, 101), (some 2, 102), (some 3, 103), (some 4, 104),
   (some 5, 105), (some 6, 106), (some 7, 107)]

/-- The spec's double-elim N=4 run, played through the public API up to the
point where Grand Finals 1 (id 6) is the only pending match: Winners
round 1 (ids 1, 2: 201 and 202 win), Winners final (id 3: 201 wins),
Losers round 1 (id 4: 204 wins), Losers final cross (id 5: 204 wins). -/
def gfReady : List Match :=
  (record_result "double_elim"
    (record_result "double_elim"
      (record_result "double_elim"
        (record_result "double_elim"
          (record_result "double_elim"
            (create_bracket "double_elim" teams4 []).2 1 201).2 2 202).2 3 201).2
      4 204).2 5 204).2

/-- `gfReady` after the Losers-side entrant 204 wins Grand Finals 1. -/
def gfResetState : List Match := (record_result "double_elim" gfReady 6 204).2

/-- `gfReady` after the Winners-side entrant 201 wins Grand Finals 1. -/
def gfDoneState : List Match := (record_result "double_elim" gfReady 6 201).2

/-- The 7-entrant double-elim run, played through the public API until all
three non-BYE Winners-round-1 matches are reported (ids 2, 3, 4; the
seeds 4, 2, 3 teams win).  The last report's advance pass creates Winners
round 2 and Losers round 1 — whose odd loser count forces a BYE. -/
def lbByeState : List Match :=
  (record_result "double_elim"
    (record_result "double_elim"
      (record_result "double_elim"
        (create_bracket "double_elim" teams7 []).2 2 104).2 3 102).2 4 103).2

/-- The claim's invariant, as stated: an empty second slot only in Winners
round 1. -/
def byeOnlyInWinnersR1 (ms : List Match) : Prop :=
  ∀ m ∈ ms, m.team2 = none → m.bracket = "W" ∧ m.round_no = 1

/-- Two completed Winners-round-1 matches whose round-2 successor was never
created (as after a partial failure between recording and advancing). -/
def staleState : List Match :=
  [{ id := 1, bracket := "W", round_no := 1, match_no := 1, team1 := 10, team2 := some 11,
     status := "completed", winner := some 10, loser := some 11 },
   { id := 2, bracket := "W", round_no := 1, match_no := 2, team1 := 12, team2 := some 13,
     status := "completed", winner := some 12, loser := some 13 }]

/-- A lone Pending BYE row (reachable when `_set_bye_winner` failed after
the insert). -/
def pendingByeState : List Match :=
  [{ id := 1, bracket := "W", round_no := 1, match_no := 1, team1 := 10, team2 := none,
     status := "pending", winner := none, loser := none }]

/-- The ten ASCII digit characters (for classifying rendered codes). -/
def digitChars : List Char := ['0', '1', '2', '3', '4', '5', '6', '7', '8', '9']

/-- Two completed Winners-round-1 matches, the first with its winner column
still NULL (as after a partial write). -/
def winnerUnsetState : List Match :=
  [{ id := 1, bracket := "W", round_no := 1, match_no := 1, team1 := 5, team2 := some 6,
     status := "completed", winner := none, loser := none },
   { id := 2, bracket := "W", round_no := 1, match_no := 2, team1 := 7, team2 := some 8,
     status := "completed", winner := some 8, loser := some 7 }]

/-! ## Theorems -/

section SeedingModule

theorem seeded_positions_examples :
    seeded_positions 8 = [1, 8, 4, 5, 2, 7, 3, 6] ∧
    seeded_positions 4 = [1, 4, 2, 3] ∧ seeded_positions 1 = [1] := by decide

/-- The doubling loop of `next_power_of_two`, fully specified: starting from
`p = 2 ^ a` with enough fuel, it returns the least power of two that is
`≥ n` among the powers `≥ p`. -/
theorem nptLoopF_spec :
    ∀ (f : Nat) (n : Int) (p a : Nat), p = 2 ^ a → (n - p).toNat < f →
      ∃ k, a ≤ k ∧ nptLoopF f n p = 2 ^ k ∧ n ≤ ((2 : Int) ^ k) ∧
        ∀ j : Nat, a ≤ j → n ≤ ((2 : Int) ^ j) → k ≤ j := by
  intro f
  induction f with
  | zero => intro n p a _ h; omega
  | succ f ih =>
    intro n p a hp hf
    have hppos : 0 < p := hp ▸ Nat.two_pow_pos a
    have hpa : ((p : Nat) : Int) = 2 ^ a := by rw [hp]; push_cast; ring
    by_cases hlt : (p : Int) < n
    · have h2p : 2 * p = 2 ^ (a + 1) := by rw [hp]; ring
      have hfuel : (n - (2 * p : Nat)).toNat < f := by push_cast; omega
      obtain ⟨k, hak, hval, hle, hmin⟩ := ih n (2 * p) (a + 1) h2p hfuel
      refine ⟨k, by omega, ?_, hle, ?_⟩
      · simpa [nptLoopF, hlt] using hval
      · intro j haj hj
        have hja : a < j := by
          by_contra hc
          have hle2 : (2 : Int) ^ j ≤ 2 ^ a :=
            pow_le_pow_right₀ (by norm_num) (by omega)
          have hpj : (2 : Int) ^ a < 2 ^ j := by
            calc (2 : Int) ^ a = (p : Int) := hpa.symm
              _ < n := hlt
              _ ≤ 2 ^ j := hj
          linarith
        exact hmin j (by omega) hj
    · have hres : nptLoopF (f + 1) n p = p := by simp [nptLoopF, hlt]
      refine ⟨a, le_refl a, by rw [hres, hp], ?_, fun j haj _ => haj⟩
      rw [← hpa]; omega

/-- C8 (amended): `next_power_of_two` returns 1 (not 2) for `n ≤ 1`; for
every `n ≥ 2` it returns the smallest power of two that is `≥ n`. -/
theorem next_power_of_two_spec (n : Int) :
    (n ≤ 1 → next_power_of_two n = 1) ∧
    (2 ≤ n → ∃ k : Nat, next_power_of_two n = 2 ^ k ∧ n ≤ ((2 : Int) ^ k) ∧
      ∀ j : Nat, n ≤ ((2 : Int) ^ j) → k ≤ j) := by
  constructor
  · intro h; simp [next_power_of_two, h]
  · intro h
    have hn : ¬ n ≤ 1 := by omega
    obtain ⟨k, _, hval, hle, hmin⟩ :=
      nptLoopF_spec n.toNat n 1 0 (by norm_num) (by omega)
    refine ⟨k, ?_, hle, fun j hj => hmin j (Nat.zero_le j) hj⟩
    simp only [next_power_of_two, hn, if_false, hval]
    push_cast; ring

/-- Witness for `next_power_of_two_spec` at `n = -5` and `n = 5`. -/
theorem next_power_of_two_spec_witness :
    next_power_of_two (-5) = 1 ∧
    (∃ k : Nat, next_power_of_two 5 = 2 ^ k ∧ (5 : Int) ≤ 2 ^ k ∧
      ∀ j : Nat, (5 : Int) ≤ 2 ^ j → k ≤ j) :=
  ⟨(next_power_of_two_spec (-5)).1 (by decide), (next_power_of_two_spec 5).2 (by decide)⟩

/-- C8 counterexample: the claim says `next_power_of_two n = 2` for every
`n ≤ 1`, but the source returns 1 for `n ≤ 1` (`if n <= 1: return 1`). -/
theorem next_power_of_two_one : next_power_of_two 1 ≠ 2 := by decide

end SeedingModule

section MatchAddressing

theorem mem_digitChars_of_natCharsF :
    ∀ (f n : Nat), ∀ c ∈ natCharsF f n, c ∈ digitChars := by
  intro f
  induction f with
  | zero => intro n c hc; simp [natCharsF] at hc
  | succ f ih =>
    intro n c hc
    by_cases h0 : n = 0
    · simp [natCharsF, h0] at hc
    · simp only [natCharsF, if_neg h0, List.mem_append, List.mem_singleton] at hc
      rcases hc with hc | hc
      · exact ih _ c hc
      · subst hc
        have h10 : n % 10 < 10 := Nat.mod_lt _ (by norm_num)
        interval_cases h : n % 10 <;> decide

theorem mem_digitChars_of_natChars (n : Nat) : ∀ c ∈ natChars n, c ∈ digitChars := by
  intro c hc
  by_cases h0 : n = 0
  · simp [natChars, h0] at hc; subst hc; decide
  · exact mem_digitChars_of_natCharsF n n c (by simpa [natChars, h0] using hc)

theorem digit_props : ∀ c ∈ digitChars,
    isDig c = true ∧ isPySpace c = false ∧ pyUpperChar c = c := by
  decide

theorem charsVal_append_digit (xs : List Char) (c : Char) :
    charsVal (xs ++ [c]) = 10 * charsVal xs + (c.toNat - 48) := by
  simp [charsVal, List.foldl_append]

theorem natCharsF_val : ∀ (f n : Nat), n ≤ f → charsVal (natCharsF f n) = n := by
  intro f
  induction f with
  | zero => intro n h; interval_cases n; simp [natCharsF, charsVal]
  | succ f ih =>
    intro n h
    by_cases h0 : n = 0
    · simp [natCharsF, h0, charsVal]
    · rw [natCharsF, if_neg h0, charsVal_append_digit,
        ih (n / 10) (by omega)]
      have h10 : n % 10 < 10 := Nat.mod_lt _ (by norm_num)
      have hch : (Char.ofNat (n % 10 + 48)).toNat = n % 10 + 48 := by
        interval_cases h : n % 10 <;> decide
      omega

theorem natChars_val (n : Nat) : charsVal (natChars n) = n := by
  by_cases h0 : n = 0
  · simp [natChars, h0]; decide
  · simp [natChars, h0, natCharsF_val n n le_rfl]

theorem natChars_ne_nil (n : Nat) : natChars n ≠ [] := by
  by_cases h0 : n = 0
  · simp [natChars, h0]
  · obtain ⟨f, hf⟩ : ∃ f, n = f + 1 := ⟨n - 1, by omega⟩
    simp [natChars, h0, hf, natCharsF, show f + 1 ≠ 0 by omega]

end MatchAddressing

section MatchAddressing2

theorem charsVal_zero_cons (xs : List Char) : charsVal ('0' :: xs) = charsVal xs := by
  simp [charsVal, List.foldl_cons]

theorem twoDigit_val (m : Nat) : charsVal (twoDigit m) = m := by
  by_cases h : m < 10
  · simp [twoDigit, h, charsVal_zero_cons, natChars_val]
  · simp [twoDigit, h, natChars_val]

theorem twoDigit_mem (m : Nat) : ∀ c ∈ twoDigit m, c ∈ digitChars := by
  intro c hc
  by_cases h : m < 10
  · simp only [twoDigit, if_pos h, List.mem_cons] at hc
    rcases hc with hc | hc
    · subst hc; decide
    · exact mem_digitChars_of_natChars m c hc
  · exact mem_digitChars_of_natChars m c (by simpa [twoDigit, h] using hc)

theorem twoDigit_ne_nil (m : Nat) : twoDigit m ≠ [] := by
  by_cases h : m < 10
  · simp [twoDigit, h]
  · simp [twoDigit, h, natChars_ne_nil]

theorem dropWhile_all_neg {p : Char → Bool} :
    ∀ {cs : List Char}, (∀ c ∈ cs, p c = false) → cs.dropWhile p = cs := by
  intro cs h
  cases cs with
  | nil => rfl
  | cons c rest => simp [List.dropWhile, h c (by simp)]

theorem pyStrip_of_no_space {cs : List Char} (h : ∀ c ∈ cs, isPySpace c = false) :
    pyStrip cs = cs := by
  unfold pyStrip
  rw [dropWhile_all_neg h, dropWhile_all_neg (by simpa using h), List.reverse_reverse]

theorem map_upper_id : ∀ {cs : List Char}, (∀ c ∈ cs, pyUpperChar c = c) →
    cs.map pyUpperChar = cs := by
  intro cs
  induction cs with
  | nil => intro _; rfl
  | cons c rest ih => intro h; simp_all

theorem takeWhile_digits_append (l2 : List Char) :
    ∀ (l1 : List Char), (∀ c ∈ l1, isDig c = true) →
      (l1 ++ '-' :: l2).takeWhile isDig = l1 ∧
      (l1 ++ '-' :: l2).dropWhile isDig = '-' :: l2 := by
  intro l1
  induction l1 with
  | nil =>
    intro _
    have hd : isDig '-' = false := by decide
    constructor <;> simp [List.takeWhile, List.dropWhile, hd]
  | cons c rest ih =>
    intro h
    have hc : isDig c = true := h c (by simp)
    have := ih fun c hc => h c (by simp [hc])
    simp [List.takeWhile, List.dropWhile, hc, this.1, this.2]

end MatchAddressing2

section MatchAddressing3

theorem parseTailWL_encode (bk : String) (r m : Nat) (hr : 1 ≤ r) (hm : 1 ≤ m) :
    parseTailWL bk (natChars r ++ '-' :: twoDigit m) = some (bk, r, m) := by
  have hdig : ∀ c ∈ natChars r, isDig c = true := fun c hc =>
    (digit_props c (mem_digitChars_of_natChars r c hc)).1
  obtain ⟨ht, hd⟩ := takeWhile_digits_append (twoDigit m) (natChars r) hdig
  have hall : (twoDigit m).all isDig = true := by
    rw [List.all_eq_true]; exact fun c hc => (digit_props c (twoDigit_mem m c hc)).1
  simp only [parseTailWL, ht, hd]
  rw [if_pos ⟨natChars_ne_nil r, twoDigit_ne_nil m, hall⟩, twoDigit_val, natChars_val]
  rw [if_neg (by omega), if_neg (by omega)]

theorem parseTailGF_encode (m : Nat) (hm : 1 ≤ m) :
    parseTailGF ('-' :: twoDigit m) = some ("GF", 1, m) := by
  have hall : (twoDigit m).all isDig = true := by
    rw [List.all_eq_true]; exact fun c hc => (digit_props c (twoDigit_mem m c hc)).1
  simp only [parseTailGF]
  rw [if_pos ⟨twoDigit_ne_nil m, hall⟩, twoDigit_val, if_neg (by omega)]

theorem clean_of_subset {cs : List Char}
    (h : ∀ c ∈ cs, c = 'W' ∨ c = 'L' ∨ c = 'G' ∨ c = 'F' ∨ c = '-' ∨ c ∈ digitChars) :
    (pyStrip cs).map pyUpperChar = cs := by
  have hs : ∀ c ∈ cs, isPySpace c = false := by
    intro c hc
    rcases h c hc with h | h | h | h | h | h
    · subst h; decide
    · subst h; decide
    · subst h; decide
    · subst h; decide
    · subst h; decide
    · exact (digit_props c h).2.1
  have hu : ∀ c ∈ cs, pyUpperChar c = c := by
    intro c hc
    rcases h c hc with h | h | h | h | h | h
    · subst h; decide
    · subst h; decide
    · subst h; decide
    · subst h; decide
    · subst h; decide
    · exact (digit_props c h).2.2
  rw [pyStrip_of_no_space hs, map_upper_id hu]

theorem parseMatchCode_W {cs rest : List Char}
    (h : (pyStrip cs).map pyUpperChar = 'W' :: rest) :
    parseMatchCode cs = parseTailWL "W" rest := by
  unfold parseMatchCode; rw [h]; cases rest <;> rfl

theorem parseMatchCode_L {cs rest : List Char}
    (h : (pyStrip cs).map pyUpperChar = 'L' :: rest) :
    parseMatchCode cs = parseTailWL "L" rest := by
  unfold parseMatchCode; rw [h]; cases rest <;> rfl

theorem parseMatchCode_GF {cs rest : List Char}
    (h : (pyStrip cs).map pyUpperChar = 'G' :: 'F' :: rest) :
    parseMatchCode cs = parseTailGF rest := by
  unfold parseMatchCode; rw [h]; cases rest <;> rfl

end MatchAddressing3

section MatchAddressing4

/-- C9: encode-then-decode is the identity on valid triples. -/
theorem match_code_round_trip (b : String) (r m : Nat)
    (hb : b = "W" ∨ b = "L" ∨ b = "GF") (hr : 1 ≤ r) (hm : 1 ≤ m)
    (hgf : b = "GF" → r = 1) :
    parse_match_code (match_code b r m) = some (b, r, m) := by
  rcases hb with hb | hb | hb
  · subst hb
    have hform : encodeChars "W" r m = 'W' :: (natChars r ++ '-' :: twoDigit m) := by
      simp [encodeChars]
    have hmem : ∀ c ∈ encodeChars "W" r m,
        c = 'W' ∨ c = 'L' ∨ c = 'G' ∨ c = 'F' ∨ c = '-' ∨ c ∈ digitChars := by
      rw [hform]; intro c hc
      simp only [List.mem_cons, List.mem_append] at hc
      have h1 := fun h => mem_digitChars_of_natChars r c h
      have h2 := fun h => twoDigit_mem m c h
      tauto
    show parseMatchCode (encodeChars "W" r m) = _
    rw [parseMatchCode_W ((clean_of_subset hmem).trans hform)]
    exact parseTailWL_encode "W" r m hr hm
  · subst hb
    have hform : encodeChars "L" r m = 'L' :: (natChars r ++ '-' :: twoDigit m) := by
      simp [encodeChars]
    have hmem : ∀ c ∈ encodeChars "L" r m,
        c = 'W' ∨ c = 'L' ∨ c = 'G' ∨ c = 'F' ∨ c = '-' ∨ c ∈ digitChars := by
      rw [hform]; intro c hc
      simp only [List.mem_cons, List.mem_append] at hc
      have h1 := fun h => mem_digitChars_of_natChars r c h
      have h2 := fun h => twoDigit_mem m c h
      tauto
    show parseMatchCode (encodeChars "L" r m) = _
    rw [parseMatchCode_L ((clean_of_subset hmem).trans hform)]
    exact parseTailWL_encode "L" r m hr hm
  · subst hb
    have hr1 := hgf rfl
    subst hr1
    have hform : encodeChars "GF" 1 m = 'G' :: 'F' :: '-' :: twoDigit m := by
      simp [encodeChars]
    have hmem : ∀ c ∈ encodeChars "GF" 1 m,
        c = 'W' ∨ c = 'L' ∨ c = 'G' ∨ c = 'F' ∨ c = '-' ∨ c ∈ digitChars := by
      rw [hform]; intro c hc
      simp only [List.mem_cons] at hc
      have h2 := fun h => twoDigit_mem m c h
      tauto
    show parseMatchCode (encodeChars "GF" 1 m) = _
    rw [parseMatchCode_GF ((clean_of_subset hmem).trans hform)]
    exact parseTailGF_encode m hm

/-- Witness for `match_code_round_trip`: the Winners round-3 match 12 and
the Grand-Finals match 2. -/
theorem match_code_round_trip_witness :
    parse_match_code (match_code "W" 3 12) = some ("W", 3, 12) ∧
    parse_match_code (match_code "GF" 1 2) = some ("GF", 1, 2) :=
  ⟨match_code_round_trip "W" 3 12 (by decide) (by decide) (by decide) (by decide),
   match_code_round_trip "GF" 1 2 (by decide) (by decide) (by decide) (by decide)⟩

end MatchAddressing4

section ResultRecorder

/-- C10: `_winners_in_order` substitutes `team1` for a missing winner on
every match, two-occupant matches included, and advancement then proceeds
with that team: the concrete state has a completed round-1 match whose
winner column is NULL, and `advance` seeds its `team1` (5) into round 2. -/
theorem winner_unset_defaults_to_slot1 :
    (∀ ms : List Match, winnersInOrder ms = ms.map fun m => m.winner.getD m.team1) ∧
    (advance "single_elim" winnerUnsetState).2 =
      winnerUnsetState ++
        [{ id := 3, bracket := "W", round_no := 2, match_no := 1, team1 := 5, team2 := some 8,
           status := "pending", winner := none, loser := none }] := by
  constructor
  · intro ms
    unfold winnersInOrder
    refine List.map_congr_left fun m _ => ?_
    cases m.winner <;> simp [Option.getD]
  · decide

/-- C2 counterexample: reporting winner 999 (an occupant of nothing) on a
Pending BYE match neither raises nor leaves the match Pending — the BYE
branch of `record_result` runs before winner validation and auto-resolves
the match. -/
theorem record_result_bye_not_rejected :
    (record_result "single_elim" pendingByeState 1 999).1 = none ∧
    (record_result "single_elim" pendingByeState 1 999).2 ≠ pendingByeState := by decide

/-- C2 (amended): an unknown match or a winner outside a pending two-team
match fails with the named error and leaves the table unchanged; a
Pending BYE match is auto-resolved (no error) instead of being rejected. -/
theorem record_result_validation (fmt : String) (ms : List Match) (mid w : Nat) :
    ((ms.find? fun x => x.id = mid) = none →
      record_result fmt ms mid w = (some "Match not found.", ms)) ∧
    (∀ m, (ms.find? fun x => x.id = mid) = some m → pyLower m.status ≠ "completed" →
      ∀ t2, m.team2 = some t2 → w ≠ m.team1 → w ≠ t2 →
      record_result fmt ms mid w =
        (some "winner_event_team_id must be team1 or team2 for this match.", ms)) ∧
    (∀ m, (ms.find? fun x => x.id = mid) = some m → pyLower m.status ≠ "completed" →
      m.team2 = none → record_result fmt ms mid w = (none, setByeWinner ms mid m.team1)) := by
  refine ⟨fun h => by simp [record_result, h],
    fun m hm hc t2 ht hw1 hw2 => ?_, fun m hm hc ht => ?_⟩
  · simp [record_result, hm, hc, ht, hw1, hw2]
  · simp [record_result, hm, hc, ht]

/-- Witness for `record_result_validation` on concrete states. -/
theorem record_result_validation_witness :
    record_result "double_elim" gfReady 99 0 = (some "Match not found.", gfReady) ∧
    record_result "double_elim" gfReady 6 999 =
      (some "winner_event_team_id must be team1 or team2 for this match.", gfReady) ∧
    record_result "single_elim" pendingByeState 1 0 = (none, setByeWinner pendingByeState 1 10) :=
  ⟨(record_result_validation "double_elim" gfReady 99 0).1 (by decide),
   (record_result_validation "double_elim" gfReady 6 999).2.1
     { id := 6, bracket := "GF", round_no := 1, match_no := 1, team1 := 201, team2 := some 204,
       status := "pending", winner := none, loser := none }
     (by decide) (by decide) 204 (by decide) (by decide) (by decide),
   (record_result_validation "single_elim" pendingByeState 1 0).2.2
     { id := 1, bracket := "W", round_no := 1, match_no := 1, team1 := 10, team2 := none,
       status := "pending", winner := none, loser := none }
     (by decide) (by decide) (by decide)⟩

/-- C6 (amended): re-reporting a Completed match is a silent no-op that
returns the table untouched — it does not re-run the Advancement Engine. -/
theorem rereport_silent_noop (fmt : String) (ms : List Match) (mid w : Nat) (m : Match)
    (hf : (ms.find? fun x => x.id = mid) = some m)
    (hc : pyLower m.status = "completed") :
    record_result fmt ms mid w = (none, ms) := by
  simp [record_result, hf, hc]

theorem rereport_silent_noop_witness :
    record_result "single_elim" staleState 1 12 = (none, staleState) :=
  rereport_silent_noop "single_elim" staleState 1 12
    { id := 1, bracket := "W", round_no := 1, match_no := 1, team1 := 10, team2 := some 11,
      status := "completed", winner := some 10, loser := some 11 }
    (by decide) (by decide)

/-- C6 counterexample: on `staleState` (round 1 fully completed, round 2
never created) re-reporting match 1 returns without creating anything,
while the claimed defensive advancement pass would have created round 2 —
so `record_result` demonstrably does not re-invoke the engine. -/
theorem rereport_does_not_advance :
    record_result "single_elim" staleState 1 10 = (none, staleState) ∧
    (advance "single_elim" staleState).2 ≠ staleState := by decide

end ResultRecorder

section BracketCreation

/-- C7 counterexample: `create_bracket` on an unsupported format raises,
but the Winners-round-1 rows created before the (too late) format check
remain persisted — the claimed "no partial mutation" fails. -/
theorem create_bracket_partial_mutation :
    (create_bracket "round_robin" [(some 1, 11), (some 2, 22)] []).1 =
      some "Unsupported event format." ∧
    (create_bracket "round_robin" [(some 1, 11), (some 2, 22)] []).2 ≠ [] := by decide

/-- C7 (amended): on any format that is neither single- nor
double-elimination, `create_bracket` raises `Unsupported event format.`
(surfaced from the `advance` pass that runs before the function's own
trailing format check), with the already-created Winners round 1
persisted. -/
theorem create_bracket_unsupported_format (fmt : String)
    (h1 : pyLower fmt ≠ "single_elim") (h2 : pyLower fmt ≠ "double_elim") :
    create_bracket fmt [(some 1, 11), (some 2, 22)] [] =
      (some "Unsupported event format.",
       [{ id := 1, bracket := "W", round_no := 1, match_no := 1, team1 := 11, team2 := some 22,
          status := "pending", winner := none, loser := none }]) := by
  simp [create_bracket, advance, h1, h2, validateSeeds, pairRound1, pairRound1Go,
    seeded_positions, seededPositionsF, chunk2, lookupSeed, seedToIdMap, createW1, nextId, maxId,
    Except.map]

theorem create_bracket_unsupported_format_witness :
    create_bracket "round_robin" [(some 1, 11), (some 2, 22)] [] =
      (some "Unsupported event format.",
       [{ id := 1, bracket := "W", round_no := 1, match_no := 1, team1 := 11, team2 := some 22,
          status := "pending", winner := none, loser := none }]) :=
  create_bracket_unsupported_format "round_robin" (by decide) (by decide)

end BracketCreation

section ByeAndGrandFinals

/-- C3 counterexample: with 7 entrants in double elimination, the reachable
state `lbByeState` violates the claimed invariant — its Losers-round-1
match L1-02 (created by the Advancement Engine from the odd loser count
of Winners round 1) has an empty second slot. -/
theorem bye_outside_winners_round1 : ¬ byeOnlyInWinnersR1 lbByeState := by
  intro h
  have := h { id := 8, bracket := "L", round_no := 1, match_no := 2, team1 := 106, team2 := none,
              status := "completed", winner := some 106, loser := none } (by decide) rfl
  exact absurd this.1 (by decide)

/-- C3 (amended): BYEs can also appear in Advancement-created Losers rounds
fed by an odd entrant list.  In the reachable 7-entrant state the BYE
matches are exactly W1-01 and L1-02, and each (the Losers one
included) is auto-completed with its sole slot-1 occupant as winner. -/
theorem bye_in_losers_round1_auto_completed :
    ((lbByeState.filter fun m => m.team2 = none).map fun m =>
      (m.bracket, m.round_no, m.match_no)) = [("W", 1, 1), ("L", 1, 2)] ∧
    (∀ m ∈ lbByeState, goodBye m) := by decide

/-- Recording any result against a fully completed table leaves it
untouched (either the completed-guard no-op or the not-found error). -/
theorem record_result_state_of_all_completed (fmt : String) (ms : List Match)
    (h : ∀ m ∈ ms, pyLower m.status = "completed") (mid w : Nat) :
    (record_result fmt ms mid w).2 = ms := by
  unfold record_result
  cases hf : ms.find? fun x => x.id = mid with
  | none => rfl
  | some m =>
    have hm : m ∈ ms := List.mem_of_find?_eq_some hf
    simp [h m hm]

/-- A second `create_bracket` on a nonempty table is refused untouched. -/
theorem create_bracket_state_of_nonempty (fmt : String) (teams : List (Option Nat × Nat))
    (ms : List Match) (h : ms ≠ []) :
    create_bracket fmt teams ms = (some "Matches already exist for this event.", ms) := by
  simp [create_bracket, h]

/-- C5: the spec's double-elim N=4 scenario.  From `gfReady` (Grand Finals
1 pending between Winners champion 201 and Losers champion 204): if the
Losers-side entrant 204 wins, exactly one reset match GF-02 is created
with the same two entrants; if the Winners-side entrant 201 wins, the
Grand Finals remain a single match and no sequence of further outward
calls (`advance`, `record_result`, `create_bracket`) ever changes the
table, so no second Grand Finals match is ever created. -/
theorem grand_finals_reset :
    (record_result "double_elim" gfReady 6 204).1 = none ∧
    ((gfResetState.filter fun m => m.bracket = "GF").map fun m =>
        (m.round_no, m.match_no, m.team1, m.team2, m.status)) =
      [(1, 1, 201, some 204, "completed"), (1, 2, 201, some 204, "pending")] ∧
    (record_result "double_elim" gfReady 6 201).1 = none ∧
    ((gfDoneState.filter fun m => m.bracket = "GF").map fun m =>
        (m.round_no, m.match_no, m.team1, m.team2, m.status)) =
      [(1, 1, 201, some 204, "completed")] ∧
    (∀ ops : List Op, ops.foldl (applyOp "double_elim") gfDoneState = gfDoneState) := by
  refine ⟨by decide, by decide, by decide, by decide, ?_⟩
  have hstep : ∀ op : Op, applyOp "double_elim" gfDoneState op = gfDoneState := by
    intro op
    cases op with
    | adv => show (advance "double_elim" gfDoneState).2 = gfDoneState; decide
    | rep mid w =>
      exact record_result_state_of_all_completed "double_elim" gfDoneState (by decide) mid w
    | mk teams =>
      show (create_bracket "double_elim" teams gfDoneState).2 = gfDoneState
      rw [create_bracket_state_of_nonempty "double_elim" teams gfDoneState (by decide)]
  intro ops
  induction ops with
  | nil => rfl
  | cons op rest ih => rw [List.foldl_cons, hstep op]; exact ih

end ByeAndGrandFinals

section EngineLemmas

theorem mem_group {m : Match} {ms : List Match} {b : String} {r : Nat} :
    m ∈ group ms b r ↔ m ∈ ms ∧ m.bracket = b ∧ m.round_no = r := by
  unfold group
  rw [(List.perm_insertionSort _ _).mem_iff, List.mem_filter]
  simp

theorem group_append {zs : List Match} (ms : List Match) (b : String) (r : Nat)
    (h : ∀ m ∈ zs, ¬(m.bracket = b ∧ m.round_no = r)) :
    group (ms ++ zs) b r = group ms b r := by
  have hz : (zs.filter fun m => m.bracket = b ∧ m.round_no = r) = [] :=
    List.filter_eq_nil_iff.mpr (by simpa using h)
  unfold group
  rw [List.filter_append, hz, List.append_nil]

theorem group_eq_nil {ms : List Match} {b : String} {r : Nat} :
    group ms b r = [] ↔ ∀ m ∈ ms, ¬(m.bracket = b ∧ m.round_no = r) := by
  unfold group
  rw [← List.length_eq_zero, (List.perm_insertionSort _ _).length_eq,
    List.length_eq_zero, List.filter_eq_nil_iff]
  simp

theorem group_length (ms : List Match) (b : String) (r : Nat) :
    (group ms b r).length = (ms.filter fun m => m.bracket = b ∧ m.round_no = r).length :=
  (List.perm_insertionSort _ _).length_eq

theorem countWfrom_cons (x : Match) (tl : List Match) (r : Nat) :
    countWfrom (x :: tl) r =
      (if x.bracket = "W" ∧ r ≤ x.round_no then 1 else 0) + countWfrom tl r := by
  unfold countWfrom
  rw [List.filter_cons]
  split <;> simp_all <;> omega

theorem countWfrom_split (ms : List Match) (r : Nat) :
    countWfrom ms r =
      (ms.filter fun m => m.bracket = "W" ∧ m.round_no = r).length + countWfrom ms (r + 1) := by
  induction ms with
  | nil => rfl
  | cons m tl ih =>
    rw [countWfrom_cons _ _ r, countWfrom_cons _ _ (r + 1), List.filter_cons]
    split_ifs with hA hB hC <;> simp_all <;> omega

theorem countWfrom_append (ms zs : List Match) (r : Nat) :
    countWfrom (ms ++ zs) r = countWfrom ms r + countWfrom zs r := by
  unfold countWfrom
  rw [List.filter_append, List.length_append]

theorem countWfrom_all {zs : List Match} {r : Nat}
    (h : ∀ m ∈ zs, m.bracket = "W" ∧ r ≤ m.round_no) : countWfrom zs r = zs.length := by
  unfold countWfrom
  rw [List.filter_eq_self.mpr (by simpa using h)]

theorem countWfrom_nonW {zs : List Match} {r : Nat}
    (h : ∀ m ∈ zs, m.bracket ≠ "W") : countWfrom zs r = 0 := by
  unfold countWfrom
  rw [List.filter_eq_nil_iff.mpr (by simp; tauto), List.length_nil]

theorem maxW_cons (x : Match) (tl : List Match) :
    maxW (x :: tl) = if x.bracket = "W" then max x.round_no (maxW tl) else maxW tl := by
  unfold maxW
  rw [List.filter_cons]
  split <;> simp_all

theorem maxW_ge {m : Match} {ms : List Match} (hm : m ∈ ms) (hw : m.bracket = "W") :
    m.round_no ≤ maxW ms := by
  induction ms with
  | nil => cases hm
  | cons x tl ih =>
    rw [maxW_cons]
    rcases List.mem_cons.mp hm with h | h
    · subst h; rw [if_pos hw]; omega
    · have := ih h
      by_cases hx : x.bracket = "W"
      · rw [if_pos hx]; omega
      · rwa [if_neg hx]

theorem maxW_append (ms zs : List Match) : maxW (ms ++ zs) = max (maxW ms) (maxW zs) := by
  induction ms with
  | nil => simp [maxW]
  | cons x tl ih =>
    rw [List.cons_append, maxW_cons, maxW_cons, ih]
    split <;> omega

theorem maxW_nonW {zs : List Match} (h : ∀ m ∈ zs, m.bracket ≠ "W") : maxW zs = 0 := by
  induction zs with
  | nil => rfl
  | cons x tl ih =>
    rw [maxW_cons, if_neg (h x (List.mem_cons_self x tl))]
    exact ih fun m hm => h m (List.mem_cons_of_mem x hm)

theorem maxW_le {zs : List Match} {k : Nat} (h : ∀ m ∈ zs, m.bracket = "W" → m.round_no ≤ k) :
    maxW zs ≤ k := by
  induction zs with
  | nil => exact Nat.zero_le k
  | cons x tl ih =>
    rw [maxW_cons]
    have htl := ih fun m hm => h m (List.mem_cons_of_mem x hm)
    by_cases hx : x.bracket = "W"
    · have := h x (List.mem_cons_self x tl) hx
      rw [if_pos hx]; omega
    · rwa [if_neg hx]

end EngineLemmas

section CreationLemmas

theorem mkMatch_goodBye (ms : List Match) (b : String) (r mno t1 : Nat) (t2 : Option Nat) :
    goodBye (mkMatch ms b r mno t1 t2) := by
  cases t2 with
  | none =>
    refine fun _ => ⟨?_, rfl, rfl⟩
    show pyLower "completed" = "completed"
    decide
  | some t => exact fun h => absurd h (by simp [mkMatch])

theorem safeCreate_eq_or (ms : List Match) (b : String) (r mno t1 : Nat) (t2 : Option Nat) :
    safeCreate ms b r mno t1 t2 = ms ∨
      safeCreate ms b r mno t1 t2 = ms ++ [mkMatch ms b r mno t1 t2] := by
  unfold safeCreate
  split
  · exact Or.inl rfl
  · exact Or.inr rfl

theorem safeCreate_no_conflict {ms : List Match} {b : String} {r mno : Nat}
    (h : ∀ m ∈ ms, ¬(m.bracket = b ∧ m.round_no = r ∧ m.match_no = mno)) (t1 : Nat)
    (t2 : Option Nat) :
    safeCreate ms b r mno t1 t2 = ms ++ [mkMatch ms b r mno t1 t2] := by
  have hfalse : (ms.any fun m => m.bracket = b ∧ m.round_no = r ∧ m.match_no = mno) = false := by
    rw [List.any_eq_false]
    intro m hm
    simp only [decide_eq_true_eq]
    exact h m hm
  unfold safeCreate
  rw [hfalse]
  simp

theorem pairsLoop_exists (b : String) (r : Nat) :
    ∀ (es : List Nat) (ms : List Match) (k : Nat),
      ∃ N, pairsLoop b r ms es k = ms ++ N ∧
        ∀ m ∈ N, m.bracket = b ∧ m.round_no = r ∧ goodBye m
  | [], ms, k => ⟨[], by simp [pairsLoop], by simp⟩
  | [t1], ms, k => by
    rcases safeCreate_eq_or ms b r k t1 none with h | h
    · exact ⟨[], by simpa [pairsLoop] using h, by simp⟩
    · refine ⟨[mkMatch ms b r k t1 none], by simpa [pairsLoop] using h, ?_⟩
      intro m hm
      rw [List.mem_singleton] at hm
      subst hm
      exact ⟨rfl, rfl, mkMatch_goodBye ms b r k t1 none⟩
  | t1 :: t2 :: rest, ms, k => by
    obtain ⟨N', hN', hprops⟩ :=
      pairsLoop_exists b r rest (safeCreate ms b r k t1 (some t2)) (k + 1)
    have hstep : pairsLoop b r ms (t1 :: t2 :: rest) k =
        pairsLoop b r (safeCreate ms b r k t1 (some t2)) rest (k + 1) := rfl
    rcases safeCreate_eq_or ms b r k t1 (some t2) with h | h
    · exact ⟨N', by rw [hstep, hN', h], hprops⟩
    · refine ⟨mkMatch ms b r k t1 (some t2) :: N', ?_, ?_⟩
      · rw [hstep, hN', h, List.append_assoc]
        rfl
      · intro m hm
        rcases List.mem_cons.mp hm with hm | hm
        · subst hm
          exact ⟨rfl, rfl, mkMatch_goodBye ms b r k t1 (some t2)⟩
        · exact hprops m hm

theorem pairsLoop_no_conflict (b : String) (r : Nat) :
    ∀ (es : List Nat) (ms : List Match) (k : Nat),
      (∀ m ∈ ms, ¬(m.bracket = b ∧ m.round_no = r ∧ k ≤ m.match_no)) →
      ∃ N, pairsLoop b r ms es k = ms ++ N ∧ N.length = (es.length + 1) / 2 ∧
        ∀ m ∈ N, m.bracket = b ∧ m.round_no = r ∧ k ≤ m.match_no ∧ goodBye m
  | [], ms, k, _ => ⟨[], by simp [pairsLoop], by simp, by simp⟩
  | [t1], ms, k, h => by
    have hsc := safeCreate_no_conflict
      (fun m hm hc => h m hm ⟨hc.1, hc.2.1, hc.2.2.ge⟩) t1 (none : Option Nat)
    refine ⟨[mkMatch ms b r k t1 none], by simpa [pairsLoop] using hsc, by simp, ?_⟩
    intro m hm
    rw [List.mem_singleton] at hm
    subst hm
    exact ⟨rfl, rfl, le_refl k, mkMatch_goodBye ms b r k t1 none⟩
  | t1 :: t2 :: rest, ms, k, h => by
    have hsc := safeCreate_no_conflict
      (fun m hm hc => h m hm ⟨hc.1, hc.2.1, hc.2.2.ge⟩) t1 (some t2)
    have hnext : ∀ m ∈ ms ++ [mkMatch ms b r k t1 (some t2)],
        ¬(m.bracket = b ∧ m.round_no = r ∧ k + 1 ≤ m.match_no) := by
      intro m hm
      rcases List.mem_append.mp hm with hm | hm
      · exact fun hc => h m hm ⟨hc.1, hc.2.1, by omega⟩
      · rw [List.mem_singleton] at hm
        subst hm
        intro hc
        have hk : (mkMatch ms b r k t1 (some t2)).match_no = k := rfl
        have := hc.2.2
        omega
    obtain ⟨N', hN', hlen, hprops⟩ :=
      pairsLoop_no_conflict b r rest (ms ++ [mkMatch ms b r k t1 (some t2)]) (k + 1) hnext
    have hstep : pairsLoop b r ms (t1 :: t2 :: rest) k =
        pairsLoop b r (safeCreate ms b r k t1 (some t2)) rest (k + 1) := rfl
    refine ⟨mkMatch ms b r k t1 (some t2) :: N', ?_, ?_, ?_⟩
    · rw [hstep, hsc, hN', List.append_assoc]
      rfl
    · simp only [List.length_cons, hlen, List.length_cons]
      omega
    · intro m hm
      rcases List.mem_cons.mp hm with hm | hm
      · subst hm
        exact ⟨rfl, rfl, le_refl k, mkMatch_goodBye ms b r k t1 (some t2)⟩
      · obtain ⟨h1, h2, h3, h4⟩ := hprops m hm
        exact ⟨h1, h2, by omega, h4⟩

theorem crossLoop_exists (r : Nat) :
    ∀ (es : List (Nat × Option Nat)) (ms : List Match) (k : Nat),
      ∃ N, crossLoop r ms es k = ms ++ N ∧
        ∀ m ∈ N, m.bracket = "L" ∧ m.round_no = r ∧ goodBye m
  | [], ms, k => ⟨[], by simp [crossLoop], by simp⟩
  | (t1, t2) :: rest, ms, k => by
    obtain ⟨N', hN', hprops⟩ := crossLoop_exists r rest (safeCreate ms "L" r k t1 t2) (k + 1)
    have hstep : crossLoop r ms ((t1, t2) :: rest) k =
        crossLoop r (safeCreate ms "L" r k t1 t2) rest (k + 1) := rfl
    rcases safeCreate_eq_or ms "L" r k t1 t2 with h | h
    · exact ⟨N', by rw [hstep, hN', h], hprops⟩
    · refine ⟨mkMatch ms "L" r k t1 t2 :: N', ?_, ?_⟩
      · rw [hstep, hN', h, List.append_assoc]
        rfl
      · intro m hm
        rcases List.mem_cons.mp hm with hm | hm
        · subst hm
          exact ⟨rfl, rfl, mkMatch_goodBye ms "L" r k t1 t2⟩
        · exact hprops m hm

theorem crossLoop_no_conflict (r : Nat) :
    ∀ (es : List (Nat × Option Nat)) (ms : List Match) (k : Nat),
      (∀ m ∈ ms, ¬(m.bracket = "L" ∧ m.round_no = r ∧ k ≤ m.match_no)) →
      ∃ N, crossLoop r ms es k = ms ++ N ∧ N.length = es.length ∧
        ∀ m ∈ N, m.bracket = "L" ∧ m.round_no = r ∧ goodBye m
  | [], ms, k, _ => ⟨[], by simp [crossLoop], by simp, by simp⟩
  | (t1, t2) :: rest, ms, k, h => by
    have hsc := safeCreate_no_conflict
      (fun m hm hc => h m hm ⟨hc.1, hc.2.1, hc.2.2.ge⟩) t1 t2
    have hnext : ∀ m ∈ ms ++ [mkMatch ms "L" r k t1 t2],
        ¬(m.bracket = "L" ∧ m.round_no = r ∧ k + 1 ≤ m.match_no) := by
      intro m hm
      rcases List.mem_append.mp hm with hm | hm
      · exact fun hc => h m hm ⟨hc.1, hc.2.1, by omega⟩
      · rw [List.mem_singleton] at hm
        subst hm
        intro hc
        have hk : (mkMatch ms "L" r k t1 t2).match_no = k := rfl
        have := hc.2.2
        omega
    obtain ⟨N', hN', hlen, hprops⟩ :=
      crossLoop_no_conflict r rest (ms ++ [mkMatch ms "L" r k t1 t2]) (k + 1) hnext
    have hstep : crossLoop r ms ((t1, t2) :: rest) k =
        crossLoop r (safeCreate ms "L" r k t1 t2) rest (k + 1) := rfl
    refine ⟨mkMatch ms "L" r k t1 t2 :: N', ?_, by simp [hlen], ?_⟩
    · rw [hstep, hsc, hN', List.append_assoc]
      rfl
    · intro m hm
      rcases List.mem_cons.mp hm with hm | hm
      · subst hm
        exact ⟨rfl, rfl, mkMatch_goodBye ms "L" r k t1 t2⟩
      · exact hprops m hm

end CreationLemmas

section SingleElimLoop

theorem seFuel_succ_lt (ms : List Match) (r : Nat) (hne : group ms "W" r ≠ []) :
    seFuel ms (r + 1) < seFuel ms r := by
  have hsplit := countWfrom_split ms r
  have hlen : 1 ≤ (ms.filter fun m => m.bracket = "W" ∧ m.round_no = r).length := by
    rw [← group_length]
    cases h : group ms "W" r with
    | nil => exact absurd h hne
    | cons a l => simp
  unfold seFuel
  omega

theorem maxW_ge_of_group_ne_nil {ms : List Match} {r : Nat} (hne : group ms "W" r ≠ []) :
    r ≤ maxW ms := by
  cases hg : group ms "W" r with
  | nil => exact absurd hg hne
  | cons a l =>
    have ha := mem_group.mp (hg ▸ List.mem_cons_self a l)
    exact ha.2.2 ▸ maxW_ge ha.1 ha.2.1

theorem seFuel_create_lt (ms : List Match) (r : Nat)
    (hc : allCompleted (group ms "W" r))
    (hw : ¬ (winnersInOrder (group ms "W" r)).length ≤ 1)
    (hnil : group ms "W" (r + 1) = []) :
    seFuel (pairsLoop "W" (r + 1) ms (winnersInOrder (group ms "W" r)) 1) (r + 1) <
      seFuel ms r := by
  have hnc : ∀ m ∈ ms, ¬(m.bracket = "W" ∧ m.round_no = r + 1 ∧ 1 ≤ m.match_no) :=
    fun m hm hcon => (group_eq_nil.mp hnil) m hm ⟨hcon.1, hcon.2.1⟩
  obtain ⟨N, hN, hlen, hprops⟩ := pairsLoop_no_conflict "W" (r + 1) _ ms 1 hnc
  rw [hN]
  have hwlen : (winnersInOrder (group ms "W" r)).length =
      (ms.filter fun m => m.bracket = "W" ∧ m.round_no = r).length := by
    unfold winnersInOrder
    rw [List.length_map, group_length]
  have hsplit := countWfrom_split ms r
  have hcwN : countWfrom N (r + 1) = N.length :=
    countWfrom_all fun m hm => ⟨(hprops m hm).1, le_of_eq (hprops m hm).2.1.symm⟩
  have hmaxN : maxW N ≤ r + 1 := maxW_le fun m hm _ => le_of_eq (hprops m hm).2.1
  have hmaxms : r ≤ maxW ms := maxW_ge_of_group_ne_nil hc.1
  unfold seFuel
  rw [countWfrom_append, maxW_append]
  rw [hwlen] at hw
  omega

theorem seLoopF_succ (f : Nat) (ms : List Match) (r : Nat) :
    seLoopF (f + 1) ms r =
      if ¬ allCompleted (group ms "W" r) then ms
      else if (winnersInOrder (group ms "W" r)).length ≤ 1 then ms
      else if group ms "W" (r + 1) ≠ [] then seLoopF f ms (r + 1)
      else seLoopF f (pairsLoop "W" (r + 1) ms (winnersInOrder (group ms "W" r)) 1) (r + 1) :=
  rfl

theorem seLoopF_congr :
    ∀ (f₁ : Nat) {f₂ : Nat} (ms : List Match) (r : Nat),
      seFuel ms r < f₁ → seFuel ms r < f₂ → seLoopF f₁ ms r = seLoopF f₂ ms r := by
  intro f₁
  induction f₁ with
  | zero => intro f₂ ms r h _; omega
  | succ f₁ ih =>
    intro f₂ ms r h1 h2
    obtain ⟨f₂', rfl⟩ : ∃ g, f₂ = g + 1 := ⟨f₂ - 1, by omega⟩
    rw [seLoopF_succ, seLoopF_succ]
    by_cases hc : allCompleted (group ms "W" r)
    · rw [if_neg (not_not_intro hc), if_neg (not_not_intro hc)]
      by_cases hw : (winnersInOrder (group ms "W" r)).length ≤ 1
      · rw [if_pos hw, if_pos hw]
      · rw [if_neg hw, if_neg hw]
        by_cases hne : group ms "W" (r + 1) ≠ []
        · rw [if_pos hne, if_pos hne]
          have hlt := seFuel_succ_lt ms r hc.1
          exact ih ms (r + 1) (by omega) (by omega)
        · rw [if_neg hne, if_neg hne]
          push_neg at hne
          have hlt := seFuel_create_lt ms r hc hw hne
          exact ih _ (r + 1) (by omega) (by omega)
    · rw [if_pos hc, if_pos hc]

theorem seLoop_eq (ms : List Match) (r : Nat) :
    seLoop ms r =
      if ¬ allCompleted (group ms "W" r) then ms
      else if (winnersInOrder (group ms "W" r)).length ≤ 1 then ms
      else if group ms "W" (r + 1) ≠ [] then seLoop ms (r + 1)
      else seLoop (pairsLoop "W" (r + 1) ms (winnersInOrder (group ms "W" r)) 1) (r + 1) := by
  unfold seLoop
  rw [seLoopF_succ]
  by_cases hc : allCompleted (group ms "W" r)
  · rw [if_neg (not_not_intro hc), if_neg (not_not_intro hc)]
    by_cases hw : (winnersInOrder (group ms "W" r)).length ≤ 1
    · rw [if_pos hw, if_pos hw]
    · rw [if_neg hw, if_neg hw]
      by_cases hne : group ms "W" (r + 1) ≠ []
      · rw [if_pos hne, if_pos hne]
        have hlt := seFuel_succ_lt ms r hc.1
        exact seLoopF_congr _ ms (r + 1) (by omega) (by omega)
      · rw [if_neg hne, if_neg hne]
        push_neg at hne
        have hlt := seFuel_create_lt ms r hc hw hne
        exact seLoopF_congr _ _ (r + 1) (by omega) (by omega)
  · rw [if_pos hc, if_pos hc]

theorem seLoop_exists_aux :
    ∀ (fuel : Nat) (ms : List Match) (r : Nat), seFuel ms r < fuel →
      ∃ N, seLoop ms r = ms ++ N ∧
        ∀ m ∈ N, m.bracket = "W" ∧ r + 1 ≤ m.round_no ∧ goodBye m
  | 0, ms, r, h => absurd h (by omega)
  | fuel + 1, ms, r, h => by
    rw [seLoop_eq]
    by_cases h1 : allCompleted (group ms "W" r)
    case neg => exact ⟨[], by rw [if_pos h1, List.append_nil], by simp⟩
    rw [if_neg (not_not_intro h1)]
    by_cases h2 : (winnersInOrder (group ms "W" r)).length ≤ 1
    · exact ⟨[], by rw [if_pos h2, List.append_nil], by simp⟩
    rw [if_neg h2]
    by_cases h3 : group ms "W" (r + 1) ≠ []
    · rw [if_pos h3]
      have hlt := seFuel_succ_lt ms r h1.1
      obtain ⟨N, hN, hprops⟩ := seLoop_exists_aux fuel ms (r + 1) (by omega)
      exact ⟨N, hN, fun m hm => ⟨(hprops m hm).1, by have := (hprops m hm).2.1; omega,
        (hprops m hm).2.2⟩⟩
    · rw [if_neg h3]
      push_neg at h3
      have hnc : ∀ m ∈ ms, ¬(m.bracket = "W" ∧ m.round_no = r + 1 ∧ 1 ≤ m.match_no) :=
        fun m hm hcon => (group_eq_nil.mp h3) m hm ⟨hcon.1, hcon.2.1⟩
      obtain ⟨N1, hN1, _, hprops1⟩ :=
        pairsLoop_no_conflict "W" (r + 1) (winnersInOrder (group ms "W" r)) ms 1 hnc
      have hlt := seFuel_create_lt ms r h1 h2 h3
      obtain ⟨N2, hN2, hprops2⟩ := seLoop_exists_aux fuel
        (pairsLoop "W" (r + 1) ms (winnersInOrder (group ms "W" r)) 1) (r + 1) (by omega)
      refine ⟨N1 ++ N2, by rw [hN2, hN1, List.append_assoc], ?_⟩
      intro m hm
      rcases List.mem_append.mp hm with hm | hm
      · obtain ⟨ha, hb, _, hd⟩ := hprops1 m hm
        exact ⟨ha, le_of_eq hb.symm, hd⟩
      · obtain ⟨ha, hb, hd⟩ := hprops2 m hm
        exact ⟨ha, by omega, hd⟩

theorem seLoop_exists (ms : List Match) (r : Nat) :
    ∃ N, seLoop ms r = ms ++ N ∧
      ∀ m ∈ N, m.bracket = "W" ∧ r + 1 ≤ m.round_no ∧ goodBye m :=
  seLoop_exists_aux (seFuel ms r + 1) ms r (by omega)

end SingleElimLoop

section SingleElimIdem

theorem group_append_of_rounds_ge {N : List Match} (ms : List Match) (b : String)
    {r' k : Nat} (hprops : ∀ m ∈ N, k ≤ m.round_no) (hlt : r' < k) :
    group (ms ++ N) b r' = group ms b r' :=
  group_append ms b r' fun m hm hc => by
    have h1 := hprops m hm
    have h2 := hc.2
    omega

theorem group_append_of_bracket_ne {N : List Match} (ms : List Match) {b : String}
    (h : ∀ m ∈ N, m.bracket ≠ b) (r' : Nat) :
    group (ms ++ N) b r' = group ms b r' :=
  group_append ms b r' fun m hm hc => (h m hm) hc.1

theorem group_ne_nil_of_mem {ms : List Match} {m : Match} {b : String} {r : Nat}
    (hm : m ∈ ms) (hb : m.bracket = b) (hr : m.round_no = r) :
    group ms b r ≠ [] :=
  fun hnil => (group_eq_nil.mp hnil) m hm ⟨hb, hr⟩

theorem seLoop_idem_aux :
    ∀ (fuel : Nat) (ms : List Match) (r : Nat), seFuel ms r < fuel →
      seLoop (seLoop ms r) r = seLoop ms r
  | 0, ms, r, h => absurd h (by omega)
  | fuel + 1, ms, r, h => by
    by_cases h1 : allCompleted (group ms "W" r)
    case neg =>
      have hE : seLoop ms r = ms := by rw [seLoop_eq, if_pos h1]
      rw [hE]; exact hE
    by_cases h2 : (winnersInOrder (group ms "W" r)).length ≤ 1
    · have hE : seLoop ms r = ms := by
        rw [seLoop_eq, if_neg (not_not_intro h1), if_pos h2]
      rw [hE]; exact hE
    by_cases h3 : group ms "W" (r + 1) ≠ []
    · have hE : seLoop ms r = seLoop ms (r + 1) := by
        rw [seLoop_eq, if_neg (not_not_intro h1), if_neg h2, if_pos h3]
      have hlt := seFuel_succ_lt ms r h1.1
      have hI := seLoop_idem_aux fuel ms (r + 1) (by omega)
      obtain ⟨N, hN, hprops⟩ := seLoop_exists ms (r + 1)
      have hgr : group (seLoop ms (r + 1)) "W" r = group ms "W" r := by
        rw [hN]; exact group_append_of_rounds_ge ms "W"
          (fun m hm => (hprops m hm).2.1) (by omega)
      have hgr1 : group (seLoop ms (r + 1)) "W" (r + 1) = group ms "W" (r + 1) := by
        rw [hN]; exact group_append_of_rounds_ge ms "W"
          (fun m hm => (hprops m hm).2.1) (by omega)
      rw [hE, seLoop_eq (seLoop ms (r + 1)) r, hgr, hgr1,
        if_neg (not_not_intro h1), if_neg h2, if_pos h3]
      exact hI
    · have hE : seLoop ms r =
          seLoop (pairsLoop "W" (r + 1) ms (winnersInOrder (group ms "W" r)) 1) (r + 1) := by
        rw [seLoop_eq, if_neg (not_not_intro h1), if_neg h2, if_neg h3]
      push_neg at h3
      have hnc : ∀ m ∈ ms, ¬(m.bracket = "W" ∧ m.round_no = r + 1 ∧ 1 ≤ m.match_no) :=
        fun m hm hcon => (group_eq_nil.mp h3) m hm ⟨hcon.1, hcon.2.1⟩
      obtain ⟨N1, hN1, hlen1, hprops1⟩ :=
        pairsLoop_no_conflict "W" (r + 1) (winnersInOrder (group ms "W" r)) ms 1 hnc
      have hlt := seFuel_create_lt ms r h1 h2 h3
      have hI := seLoop_idem_aux fuel
        (pairsLoop "W" (r + 1) ms (winnersInOrder (group ms "W" r)) 1) (r + 1) (by omega)
      obtain ⟨N2, hN2, hprops2⟩ :=
        seLoop_exists (pairsLoop "W" (r + 1) ms (winnersInOrder (group ms "W" r)) 1) (r + 1)
      have hXform : seLoop (pairsLoop "W" (r + 1) ms (winnersInOrder (group ms "W" r)) 1)
          (r + 1) = (ms ++ N1) ++ N2 := by rw [hN2, hN1]
      have hgr : group (seLoop (pairsLoop "W" (r + 1) ms
          (winnersInOrder (group ms "W" r)) 1) (r + 1)) "W" r = group ms "W" r := by
        rw [hXform, group_append_of_rounds_ge (ms ++ N1) "W"
          (fun m hm => (hprops2 m hm).2.1) (by omega)]
        exact group_append_of_rounds_ge ms "W"
          (fun m hm => le_of_eq (hprops1 m hm).2.1.symm) (by omega)
      have hN1ne : N1 ≠ [] := by
        intro hcon
        rw [hcon] at hlen1
        simp at hlen1
        omega
      have hgr1ne : group (seLoop (pairsLoop "W" (r + 1) ms
          (winnersInOrder (group ms "W" r)) 1) (r + 1)) "W" (r + 1) ≠ [] := by
        obtain ⟨m0, hm0⟩ := List.exists_mem_of_ne_nil N1 hN1ne
        have hmem : m0 ∈ (ms ++ N1) ++ N2 :=
          List.mem_append_left N2 (List.mem_append_right ms hm0)
        rw [hXform]
        exact group_ne_nil_of_mem hmem (hprops1 m0 hm0).1 (hprops1 m0 hm0).2.1
      rw [hE, seLoop_eq (seLoop (pairsLoop "W" (r + 1) ms
        (winnersInOrder (group ms "W" r)) 1) (r + 1)) r, hgr,
        if_neg (not_not_intro h1), if_neg h2, if_pos hgr1ne]
      exact hI

theorem seLoop_idem (ms : List Match) (r : Nat) : seLoop (seLoop ms r) r = seLoop ms r :=
  seLoop_idem_aux (seFuel ms r + 1) ms r (by omega)

theorem seLoop_stable_append_aux :
    ∀ (fuel : Nat) (X zs : List Match) (r : Nat), seFuel X r < fuel →
      seLoop X r = X → (∀ m ∈ zs, m.bracket ≠ "W") →
      seLoop (X ++ zs) r = X ++ zs
  | 0, X, zs, r, h, _, _ => absurd h (by omega)
  | fuel + 1, X, zs, r, h, hst, hz => by
    have hgr : ∀ r', group (X ++ zs) "W" r' = group X "W" r' := fun r' =>
      group_append_of_bracket_ne X hz r'
    by_cases h1 : allCompleted (group X "W" r)
    case neg => rw [seLoop_eq, hgr, if_pos h1]
    by_cases h2 : (winnersInOrder (group X "W" r)).length ≤ 1
    · rw [seLoop_eq, hgr, if_neg (not_not_intro h1), if_pos h2]
    by_cases h3 : group X "W" (r + 1) ≠ []
    · have hE : seLoop X r = seLoop X (r + 1) := by
        rw [seLoop_eq, if_neg (not_not_intro h1), if_neg h2, if_pos h3]
      have hst1 : seLoop X (r + 1) = X := hE ▸ hst
      have hlt := seFuel_succ_lt X r h1.1
      have hI := seLoop_stable_append_aux fuel X zs (r + 1) (by omega) hst1 hz
      rw [seLoop_eq (X ++ zs) r, hgr, hgr, if_neg (not_not_intro h1), if_neg h2, if_pos h3]
      exact hI
    · exfalso
      have hE : seLoop X r =
          seLoop (pairsLoop "W" (r + 1) X (winnersInOrder (group X "W" r)) 1) (r + 1) := by
        rw [seLoop_eq, if_neg (not_not_intro h1), if_neg h2, if_neg h3]
      push_neg at h3
      have hnc : ∀ m ∈ X, ¬(m.bracket = "W" ∧ m.round_no = r + 1 ∧ 1 ≤ m.match_no) :=
        fun m hm hcon => (group_eq_nil.mp h3) m hm ⟨hcon.1, hcon.2.1⟩
      obtain ⟨N1, hN1, hlen1, _⟩ :=
        pairsLoop_no_conflict "W" (r + 1) (winnersInOrder (group X "W" r)) X 1 hnc
      obtain ⟨N2, hN2, _⟩ :=
        seLoop_exists (pairsLoop "W" (r + 1) X (winnersInOrder (group X "W" r)) 1) (r + 1)
      have hXeq : X = (X ++ N1) ++ N2 := by
        rw [← hN1, ← hN2, ← hE, hst]
      have hlenX := congrArg List.length hXeq
      simp only [List.length_append] at hlenX
      have hN1ge : 1 ≤ N1.length := by
        rw [hlen1]
        have : ¬(winnersInOrder (group X "W" r)).length ≤ 1 := h2
        omega
      omega

theorem seLoop_stable_append (X zs : List Match) (r : Nat) (hst : seLoop X r = X)
    (hz : ∀ m ∈ zs, m.bracket ≠ "W") : seLoop (X ++ zs) r = X ++ zs :=
  seLoop_stable_append_aux (seFuel X r + 1) X zs r (by omega) hst hz

end SingleElimIdem

section AdvanceSingleElim

theorem advSE_exists (ms : List Match) :
    ∃ N, advanceSingleElim ms = ms ++ N ∧
      ∀ m ∈ N, m.bracket = "W" ∧ 2 ≤ m.round_no ∧ goodBye m := by
  unfold advanceSingleElim
  split
  · exact ⟨[], by simp, by simp⟩
  · exact seLoop_exists ms 1

theorem advSE_idem (ms : List Match) :
    advanceSingleElim (advanceSingleElim ms) = advanceSingleElim ms := by
  by_cases hall : (ms.all fun m => m.bracket ≠ "W") = true
  · have h1 : advanceSingleElim ms = ms := by unfold advanceSingleElim; rw [if_pos hall]
    rw [h1]; exact h1
  · have h1 : advanceSingleElim ms = seLoop ms 1 := by
      unfold advanceSingleElim; rw [if_neg hall]
    have hmem : ∃ m ∈ ms, m.bracket = "W" := by
      rw [List.all_eq_true] at hall
      push_neg at hall
      obtain ⟨m, hm, hmb⟩ := hall
      exact ⟨m, hm, by simpa using hmb⟩
    obtain ⟨N, hN, _⟩ := seLoop_exists ms 1
    have hall2 : ¬((seLoop ms 1).all fun m => m.bracket ≠ "W") = true := by
      rw [List.all_eq_true]
      intro hcon
      obtain ⟨m, hm, hw⟩ := hmem
      have hmem2 : m ∈ seLoop ms 1 := hN ▸ List.mem_append_left N hm
      exact absurd hw (by simpa using hcon m hmem2)
    have h2 : advanceSingleElim (seLoop ms 1) = seLoop (seLoop ms 1) 1 := by
      unfold advanceSingleElim; rw [if_neg hall2]
    rw [h1, h2, seLoop_idem]

theorem advSE_stable_append (X zs : List Match) (hst : advanceSingleElim X = X)
    (hz : ∀ m ∈ zs, m.bracket ≠ "W") :
    advanceSingleElim (X ++ zs) = X ++ zs := by
  by_cases hall : ((X ++ zs).all fun m => m.bracket ≠ "W") = true
  · unfold advanceSingleElim; rw [if_pos hall]
  · have hallX : ¬(X.all fun m => m.bracket ≠ "W") = true := by
      intro hc
      apply hall
      rw [List.all_eq_true] at hc ⊢
      intro m hm
      rcases List.mem_append.mp hm with hmm | hmm
      · exact hc m hmm
      · simpa using hz m hmm
    have h1 : advanceSingleElim X = seLoop X 1 := by
      unfold advanceSingleElim; rw [if_neg hallX]
    have hstX : seLoop X 1 = X := h1 ▸ hst
    unfold advanceSingleElim
    rw [if_neg hall]
    exact seLoop_stable_append X zs 1 hstX hz

end AdvanceSingleElim

section DoubleElimLemmas

theorem createRoundFromPairs_exists (ms : List Match) (b : String) (r : Nat) (es : List Nat) :
    ∃ N, createRoundFromPairs ms b r es = ms ++ N ∧
      ∀ m ∈ N, m.bracket = b ∧ m.round_no = r ∧ goodBye m := by
  unfold createRoundFromPairs
  split
  · exact ⟨[], by simp, by simp⟩
  · exact pairsLoop_exists b r es ms 1

theorem createRoundFromPairs_no_conflict {ms : List Match} {b : String} {r : Nat}
    (h : group ms b r = []) (es : List Nat) :
    ∃ N, createRoundFromPairs ms b r es = ms ++ N ∧ N.length = (es.length + 1) / 2 ∧
      ∀ m ∈ N, m.bracket = b ∧ m.round_no = r ∧ goodBye m := by
  unfold createRoundFromPairs
  split
  case isTrue he => exact ⟨[], by simp, by simp [he], by simp⟩
  case isFalse he =>
    obtain ⟨N, hN, hlen, hprops⟩ := pairsLoop_no_conflict b r es ms 1
      fun m hm hc => group_eq_nil.mp h m hm ⟨hc.1, hc.2.1⟩
    exact ⟨N, hN, hlen, fun m hm => ⟨(hprops m hm).1, (hprops m hm).2.1, (hprops m hm).2.2.2⟩⟩

theorem createRoundFromCross_exists (ms : List Match) (r : Nat)
    (es : List (Nat × Option Nat)) :
    ∃ N, createRoundFromCross ms r es = ms ++ N ∧
      ∀ m ∈ N, m.bracket = "L" ∧ m.round_no = r ∧ goodBye m :=
  crossLoop_exists r es ms 1

theorem createRoundFromCross_no_conflict {ms : List Match} {r : Nat}
    (h : group ms "L" r = []) (es : List (Nat × Option Nat)) :
    ∃ N, createRoundFromCross ms r es = ms ++ N ∧ N.length = es.length ∧
      ∀ m ∈ N, m.bracket = "L" ∧ m.round_no = r ∧ goodBye m :=
  crossLoop_no_conflict r es ms 1 fun m hm hc => group_eq_nil.mp h m hm ⟨hc.1, hc.2.1⟩

theorem deIter_exists (ms : List Match) (wb : Nat) :
    ∃ N, deIter ms wb = ms ++ N ∧
      ∀ m ∈ N, m.bracket = "L" ∧ 2 * wb - 2 ≤ m.round_no ∧ m.round_no ≤ 2 * wb - 2 + 1 ∧
        goodBye m := by
  unfold deIter
  dsimp only
  split
  case isTrue hc =>
    obtain ⟨N1, hN1, _, hprops1⟩ := createRoundFromCross_no_conflict hc
      (zipCross (winnersInOrder (group ms "L" (2 * wb - 2 - 1)))
        (losersInOrder (group ms "W" wb)))
    rw [hN1]
    split
    case isTrue hc2 =>
      obtain ⟨N2, hN2, _, hprops2⟩ := createRoundFromPairs_no_conflict hc2.2
        (winnersInOrder (group (ms ++ N1) "L" (2 * wb - 2)))
      rw [hN2, List.append_assoc]
      refine ⟨N1 ++ N2, rfl, ?_⟩
      intro m hm
      rcases List.mem_append.mp hm with hm | hm
      · obtain ⟨ha, hb, hd⟩ := hprops1 m hm
        exact ⟨ha, le_of_eq hb.symm, by omega, hd⟩
      · obtain ⟨ha, hb, hd⟩ := hprops2 m hm
        refine ⟨ha, ?_, ?_, hd⟩
        · rw [hb]; omega
        · rw [hb]
    case isFalse h2 =>
      refine ⟨N1, rfl, ?_⟩
      intro m hm
      obtain ⟨ha, hb, hd⟩ := hprops1 m hm
      exact ⟨ha, le_of_eq hb.symm, by omega, hd⟩
  case isFalse hc =>
    split
    case isTrue hc2 =>
      obtain ⟨N2, hN2, _, hprops2⟩ := createRoundFromPairs_no_conflict hc2.2
        (winnersInOrder (group ms "L" (2 * wb - 2)))
      rw [hN2]
      refine ⟨N2, rfl, ?_⟩
      intro m hm
      obtain ⟨ha, hb, hd⟩ := hprops2 m hm
      refine ⟨ha, ?_, ?_, hd⟩
      · rw [hb]; omega
      · rw [hb]
    case isFalse => exact ⟨[], by simp, by simp⟩

theorem deLoopF_exists :
    ∀ (k : Nat) (ms : List Match) (wb : Nat),
      ∃ N, deLoopF k ms wb = ms ++ N ∧
        ∀ m ∈ N, m.bracket = "L" ∧ 2 * wb - 2 ≤ m.round_no ∧ goodBye m
  | 0, ms, wb => ⟨[], by simp [deLoopF], by simp⟩
  | k + 1, ms, wb => by
    unfold deLoopF
    by_cases h1 : allCompleted (group ms "W" wb)
    case neg => rw [if_pos h1]; exact ⟨[], by simp, by simp⟩
    rw [if_neg (not_not_intro h1)]
    by_cases h2 : group ms "L" (2 * wb - 2 - 1) = []
    · rw [if_pos h2]; exact ⟨[], by simp, by simp⟩
    rw [if_neg h2]
    by_cases h3 : allCompleted (group ms "L" (2 * wb - 2 - 1))
    case neg => rw [if_pos h3]; exact ⟨[], by simp, by simp⟩
    rw [if_neg (not_not_intro h3)]
    obtain ⟨M, hM, hMprops⟩ := deIter_exists ms wb
    obtain ⟨N', hN', hN'props⟩ := deLoopF_exists k (deIter ms wb) (wb + 1)
    rw [hN', hM, List.append_assoc]
    refine ⟨M ++ N', rfl, ?_⟩
    intro m hm
    rcases List.mem_append.mp hm with hm | hm
    · obtain ⟨ha, hb, _, hd⟩ := hMprops m hm
      exact ⟨ha, hb, hd⟩
    · obtain ⟨ha, hb, hd⟩ := hN'props m hm
      exact ⟨ha, by omega, hd⟩

end DoubleElimLemmas

section DeIterStable

theorem createRoundFromCross_nil (X : List Match) (r : Nat) :
    createRoundFromCross X r [] = X := rfl

theorem allCompleted_ne_nil {ms : List Match} (h : allCompleted ms) : ms ≠ [] := h.1

theorem winnersInOrder_length (ms : List Match) : (winnersInOrder ms).length = ms.length := by
  unfold winnersInOrder
  rw [List.length_map]

theorem deIter_stable (S E : List Match) (wb : Nat) (h2 : 2 ≤ wb)
    (hE : ∀ m ∈ E, m.bracket ≠ "W" ∧ (m.bracket = "L" → 2 * wb ≤ m.round_no)) :
    deIter (deIter S wb ++ E) wb = deIter S wb ++ E := by
  have hEg : ∀ (X : List Match) (r' : Nat), r' < 2 * wb →
      group (X ++ E) "L" r' = group X "L" r' := fun X r' hr' =>
    group_append X "L" r' fun m hm hc => by
      have hx := (hE m hm).2 hc.1
      have hy := hc.2
      omega
  have hEw : ∀ (X : List Match) (r' : Nat), group (X ++ E) "W" r' = group X "W" r' :=
    fun X r' => group_append X "W" r' fun m hm hc => (hE m hm).1 hc.1
  by_cases hcross : group S "L" (2 * wb - 2) = []
  · obtain ⟨M1, hM1, hlen1, hprops1⟩ := createRoundFromCross_no_conflict hcross
      (zipCross (winnersInOrder (group S "L" (2 * wb - 2 - 1)))
        (losersInOrder (group S "W" wb)))
    have hT : deIter S wb =
        if allCompleted (group (S ++ M1) "L" (2 * wb - 2)) ∧
            group (S ++ M1) "L" (2 * wb - 2 + 1) = [] then
          createRoundFromPairs (S ++ M1) "L" (2 * wb - 2 + 1)
            (winnersInOrder (group (S ++ M1) "L" (2 * wb - 2)))
        else S ++ M1 := by
      unfold deIter
      dsimp only
      rw [if_pos hcross, hM1]
    by_cases hpure : allCompleted (group (S ++ M1) "L" (2 * wb - 2)) ∧
        group (S ++ M1) "L" (2 * wb - 2 + 1) = []
    · -- run 1 created the cross round (nonempty) and the pure round (nonempty):
      -- run 2 sees both present and skips both creations
      obtain ⟨M2, hM2, hlen2, hprops2⟩ := createRoundFromPairs_no_conflict hpure.2
        (winnersInOrder (group (S ++ M1) "L" (2 * wb - 2)))
      have hTv : deIter S wb = S ++ M1 ++ M2 := by rw [hT, if_pos hpure, hM2]
      have hM1mem : ∃ m0 ∈ M1, m0.bracket = "L" ∧ m0.round_no = 2 * wb - 2 := by
        have hgne := allCompleted_ne_nil hpure.1
        have hnotall : ¬ ∀ m ∈ S ++ M1, ¬(m.bracket = "L" ∧ m.round_no = 2 * wb - 2) := by
          intro hall
          exact hgne (group_eq_nil.mpr hall)
        push_neg at hnotall
        obtain ⟨m0, hm0, hk⟩ := hnotall
        rcases List.mem_append.mp hm0 with hmm | hmm
        · exact absurd (group_eq_nil.mp hcross m0 hmm) (by tauto)
        · exact ⟨m0, hmm, by tauto⟩
      obtain ⟨m0, hm0, hm0b, hm0r⟩ := hM1mem
      have hM2ne : M2 ≠ [] := by
        intro hnil
        rw [hnil] at hlen2
        have hg1 : 1 ≤ (group (S ++ M1) "L" (2 * wb - 2)).length :=
          List.length_pos.mpr (allCompleted_ne_nil hpure.1)
        rw [winnersInOrder_length] at hlen2
        simp at hlen2
        omega
      obtain ⟨m2, hm2⟩ := List.exists_mem_of_ne_nil M2 hM2ne
      have hg2ne : ¬ group (S ++ M1 ++ M2 ++ E) "L" (2 * wb - 2) = [] :=
        group_ne_nil_of_mem
          (List.mem_append_left E (List.mem_append_left M2 (List.mem_append_right S hm0)))
          hm0b hm0r
      have hgpne : ¬ (allCompleted (group (S ++ M1 ++ M2 ++ E) "L" (2 * wb - 2)) ∧
          group (S ++ M1 ++ M2 ++ E) "L" (2 * wb - 2 + 1) = []) := fun hcon =>
        group_ne_nil_of_mem
          (List.mem_append_left E (List.mem_append_right (S ++ M1) hm2))
          (hprops2 m2 hm2).1 (hprops2 m2 hm2).2.1 hcon.2
      rw [hTv]
      unfold deIter
      dsimp only
      rw [if_neg hg2ne, if_neg hgpne]
    · -- run 1 did not create the pure round
      have hTv : deIter S wb = S ++ M1 := by rw [hT, if_neg hpure]
      by_cases hE1 : (zipCross (winnersInOrder (group S "L" (2 * wb - 2 - 1)))
          (losersInOrder (group S "W" wb))) = []
      · -- the cross creation was empty: run 2 recreates nothing
        have hM1nil : M1 = [] := by
          rw [hE1] at hlen1
          exact List.length_eq_zero.mp (by simpa using hlen1)
        subst hM1nil
        rw [List.append_nil] at hTv hpure
        have hgc : group (S ++ E) "L" (2 * wb - 2) = [] := by
          rw [hEg S (2 * wb - 2) (by omega)]
          exact hcross
        have hzc : zipCross (winnersInOrder (group (S ++ E) "L" (2 * wb - 2 - 1)))
            (losersInOrder (group (S ++ E) "W" wb)) = [] := by
          rw [hEg S (2 * wb - 2 - 1) (by omega), hEw S wb]
          exact hE1
        have hnp : ¬ (allCompleted (group (S ++ E) "L" (2 * wb - 2)) ∧
            group (S ++ E) "L" (2 * wb - 2 + 1) = []) := fun hcon =>
          allCompleted_ne_nil hcon.1 hgc
        rw [hTv]
        unfold deIter
        dsimp only
        rw [if_pos hgc, hzc, createRoundFromCross_nil, if_neg hnp]
      · -- the cross round was created nonempty: run 2 skips it, and the pure
        -- condition still fails
        have hM1ne : M1 ≠ [] := by
          intro hnil
          rw [hnil] at hlen1
          exact hE1 (List.length_eq_zero.mp (by simpa using hlen1.symm))
        obtain ⟨m0, hm0⟩ := List.exists_mem_of_ne_nil M1 hM1ne
        have hg2ne : ¬ group (S ++ M1 ++ E) "L" (2 * wb - 2) = [] :=
          group_ne_nil_of_mem (List.mem_append_left E (List.mem_append_right S hm0))
            (hprops1 m0 hm0).1 (hprops1 m0 hm0).2.1
        have hnp : ¬ (allCompleted (group (S ++ M1 ++ E) "L" (2 * wb - 2)) ∧
            group (S ++ M1 ++ E) "L" (2 * wb - 2 + 1) = []) := by
          intro hcon
          rw [hEg (S ++ M1) (2 * wb - 2) (by omega),
            hEg (S ++ M1) (2 * wb - 2 + 1) (by omega)] at hcon
          exact hpure hcon
        rw [hTv]
        unfold deIter
        dsimp only
        rw [if_neg hg2ne, if_neg hnp]
  · -- run 1 skipped the cross round
    have hT : deIter S wb =
        if allCompleted (group S "L" (2 * wb - 2)) ∧ group S "L" (2 * wb - 2 + 1) = [] then
          createRoundFromPairs S "L" (2 * wb - 2 + 1)
            (winnersInOrder (group S "L" (2 * wb - 2)))
        else S := by
      unfold deIter
      dsimp only
      rw [if_neg hcross]
    by_cases hpure : allCompleted (group S "L" (2 * wb - 2)) ∧
        group S "L" (2 * wb - 2 + 1) = []
    · obtain ⟨M2, hM2, hlen2, hprops2⟩ := createRoundFromPairs_no_conflict hpure.2
        (winnersInOrder (group S "L" (2 * wb - 2)))
      have hTv : deIter S wb = S ++ M2 := by rw [hT, if_pos hpure, hM2]
      have hM2ne : M2 ≠ [] := by
        intro hnil
        rw [hnil] at hlen2
        have hg1 : 1 ≤ (group S "L" (2 * wb - 2)).length :=
          List.length_pos.mpr (allCompleted_ne_nil hpure.1)
        rw [winnersInOrder_length] at hlen2
        simp at hlen2
        omega
      obtain ⟨m2, hm2⟩ := List.exists_mem_of_ne_nil M2 hM2ne
      have hgS : group (S ++ M2 ++ E) "L" (2 * wb - 2) = group S "L" (2 * wb - 2) := by
        rw [hEg (S ++ M2) (2 * wb - 2) (by omega)]
        exact group_append S "L" (2 * wb - 2) fun m hm hc => by
          have hr := (hprops2 m hm).2.1
          have hr2 := hc.2
          omega
      have hg2ne : ¬ group (S ++ M2 ++ E) "L" (2 * wb - 2) = [] := by
        rw [hgS]
        exact hcross
      have hnp : ¬ (allCompleted (group (S ++ M2 ++ E) "L" (2 * wb - 2)) ∧
          group (S ++ M2 ++ E) "L" (2 * wb - 2 + 1) = []) := fun hcon =>
        group_ne_nil_of_mem
          (List.mem_append_left E (List.mem_append_right S hm2))
          (hprops2 m2 hm2).1 (hprops2 m2 hm2).2.1 hcon.2
      rw [hTv]
      unfold deIter
      dsimp only
      rw [if_neg hg2ne, if_neg hnp]
    · have hTv : deIter S wb = S := by rw [hT, if_neg hpure]
      have hg2ne : ¬ group (S ++ E) "L" (2 * wb - 2) = [] := by
        rw [hEg S (2 * wb - 2) (by omega)]
        exact hcross
      have hnp : ¬ (allCompleted (group (S ++ E) "L" (2 * wb - 2)) ∧
          group (S ++ E) "L" (2 * wb - 2 + 1) = []) := by
        intro hcon
        rw [hEg S (2 * wb - 2) (by omega), hEg S (2 * wb - 2 + 1) (by omega)] at hcon
        exact hpure hcon
      rw [hTv]
      unfold deIter
      dsimp only
      rw [if_neg hg2ne, if_neg hnp]

end DeIterStable

section DeLoopStable

theorem deLoopF_succ (k : Nat) (ms : List Match) (wb : Nat) :
    deLoopF (k + 1) ms wb =
      if ¬ allCompleted (group ms "W" wb) then ms
      else if group ms "L" (2 * wb - 2 - 1) = [] then ms
      else if ¬ allCompleted (group ms "L" (2 * wb - 2 - 1)) then ms
      else deLoopF k (deIter ms wb) (wb + 1) := rfl

theorem deLoopF_stable :
    ∀ (k : Nat) (S Z : List Match) (wb n : Nat), 2 ≤ wb → wb + k ≤ n →
      (∀ m ∈ Z, m.bracket ≠ "W" ∧ (m.bracket = "L" → 2 * n - 2 ≤ m.round_no)) →
      deLoopF k (deLoopF k S wb ++ Z) wb = deLoopF k S wb ++ Z
  | 0, S, Z, wb, n, _, _, _ => rfl
  | k + 1, S, Z, wb, n, h2, hbound, hZ => by
    have hZg : ∀ (X : List Match) (r' : Nat), r' < 2 * n - 2 →
        group (X ++ Z) "L" r' = group X "L" r' := fun X r' hr' =>
      group_append X "L" r' fun m hm hc => by
        have hx := (hZ m hm).2 hc.1
        have hy := hc.2
        omega
    have hZw : ∀ (X : List Match) (r' : Nat), group (X ++ Z) "W" r' = group X "W" r' :=
      fun X r' => group_append X "W" r' fun m hm hc => (hZ m hm).1 hc.1
    by_cases h1 : allCompleted (group S "W" wb)
    case neg =>
      have hT : deLoopF (k + 1) S wb = S := by rw [deLoopF_succ, if_pos h1]
      rw [hT, deLoopF_succ, hZw S wb, if_pos h1]
    by_cases h2c : group S "L" (2 * wb - 2 - 1) = []
    · have hT : deLoopF (k + 1) S wb = S := by
        rw [deLoopF_succ, if_neg (not_not_intro h1), if_pos h2c]
      rw [hT, deLoopF_succ, hZw S wb, if_neg (not_not_intro h1),
        hZg S (2 * wb - 2 - 1) (by omega), if_pos h2c]
    by_cases h3c : allCompleted (group S "L" (2 * wb - 2 - 1))
    case neg =>
      have hT : deLoopF (k + 1) S wb = S := by
        rw [deLoopF_succ, if_neg (not_not_intro h1), if_neg h2c, if_pos h3c]
      rw [hT, deLoopF_succ, hZw S wb, if_neg (not_not_intro h1),
        hZg S (2 * wb - 2 - 1) (by omega), if_neg h2c, if_pos h3c]
    · have hT : deLoopF (k + 1) S wb = deLoopF k (deIter S wb) (wb + 1) := by
        rw [deLoopF_succ, if_neg (not_not_intro h1), if_neg h2c, if_neg (not_not_intro h3c)]
      obtain ⟨N', hN', hN'props⟩ := deLoopF_exists k (deIter S wb) (wb + 1)
      obtain ⟨M, hM, hMprops⟩ := deIter_exists S wb
      have hgW : group (deLoopF k (deIter S wb) (wb + 1) ++ Z) "W" wb = group S "W" wb := by
        rw [hZw, hN', group_append_of_bracket_ne (deIter S wb)
            (fun m hm => by rw [(hN'props m hm).1]; decide) wb,
          hM, group_append_of_bracket_ne S
            (fun m hm => by rw [(hMprops m hm).1]; decide) wb]
      have hgL3 : group (deLoopF k (deIter S wb) (wb + 1) ++ Z) "L" (2 * wb - 2 - 1) =
          group S "L" (2 * wb - 2 - 1) := by
        rw [hZg _ _ (by omega), hN',
          group_append (deIter S wb) "L" (2 * wb - 2 - 1) (fun m hm hc => by
            have hx := (hN'props m hm).2.1
            have hy := hc.2
            omega),
          hM, group_append S "L" (2 * wb - 2 - 1) (fun m hm hc => by
            have hx := (hMprops m hm).2.1
            have hy := hc.2
            omega)]
      have hcond : ∀ m ∈ N' ++ Z, m.bracket ≠ "W" ∧
          (m.bracket = "L" → 2 * wb ≤ m.round_no) := by
        intro m hm
        rcases List.mem_append.mp hm with hm | hm
        · exact ⟨by rw [(hN'props m hm).1]; decide,
            fun _ => by have := (hN'props m hm).2.1; omega⟩
        · exact ⟨(hZ m hm).1, fun hl => by have := (hZ m hm).2 hl; omega⟩
      rw [hT, deLoopF_succ, hgW, if_neg (not_not_intro h1), hgL3, if_neg h2c,
        if_neg (not_not_intro h3c), hN', List.append_assoc,
        deIter_stable S (N' ++ Z) wb h2 hcond, ← List.append_assoc, ← hN']
      exact deLoopF_stable k (deIter S wb) Z (wb + 1) n (by omega) (by omega) hZ

end DeLoopStable

section DeFinalTailLemmas

theorem safeCreate_exists (ms : List Match) (b : String) (r mno t1 : Nat) (t2 : Option Nat) :
    ∃ N, safeCreate ms b r mno t1 t2 = ms ++ N ∧
      ∀ m ∈ N, m.bracket = b ∧ m.round_no = r ∧ m.match_no = mno ∧ goodBye m := by
  rcases safeCreate_eq_or ms b r mno t1 t2 with h | h
  · exact ⟨[], by simp [h], by simp⟩
  · refine ⟨[mkMatch ms b r mno t1 t2], h, ?_⟩
    intro m hm
    rw [List.mem_singleton] at hm
    subst hm
    exact ⟨rfl, rfl, rfl, mkMatch_goodBye ms b r mno t1 t2⟩

theorem group_singleton_of_nil {X : List Match} {b : String} {r : Nat}
    (h : group X b r = []) {g : Match} (hb : g.bracket = b) (hr : g.round_no = r) :
    group (X ++ [g]) b r = [g] := by
  have hf : (X.filter fun m => m.bracket = b ∧ m.round_no = r) = [] :=
    List.filter_eq_nil_iff.mpr (by simpa using group_eq_nil.mp h)
  unfold group
  rw [List.filter_append, hf, List.nil_append, List.filter_singleton,
    show decide (g.bracket = b ∧ g.round_no = r) = true by simp [hb, hr]]
  rfl

theorem deFinalTail_exists (S : List Match) (c n : Nat) :
    ∃ N, deFinalTail S c n = S ++ N ∧
      ∀ m ∈ N, m.bracket = "GF" ∧ m.round_no = 1 ∧ goodBye m := by
  unfold deFinalTail
  dsimp only
  split
  · exact ⟨[], by simp, by simp⟩
  by_cases hgf : group S "GF" 1 = []
  · rw [if_pos hgf]
    obtain ⟨N5, hN5, hprops5⟩ := safeCreate_exists S "GF" 1 1 c
      (some ((winnersInOrder (group S "L" (2 * n - 2))).headD 0))
    rw [hN5]
    cases hfind : (group (S ++ N5) "GF" 1).find? fun m => m.match_no = 1 with
    | none =>
      exact ⟨N5, rfl, fun m hm =>
        ⟨(hprops5 m hm).1, (hprops5 m hm).2.1, (hprops5 m hm).2.2.2⟩⟩
    | some g1 =>
      dsimp only
      split
      · obtain ⟨N6, hN6, hprops6⟩ := safeCreate_exists (S ++ N5) "GF" 1 2 c
          (some ((winnersInOrder (group S "L" (2 * n - 2))).headD 0))
        rw [hN6, List.append_assoc]
        refine ⟨N5 ++ N6, rfl, ?_⟩
        intro m hm
        rcases List.mem_append.mp hm with hm | hm
        · exact ⟨(hprops5 m hm).1, (hprops5 m hm).2.1, (hprops5 m hm).2.2.2⟩
        · exact ⟨(hprops6 m hm).1, (hprops6 m hm).2.1, (hprops6 m hm).2.2.2⟩
      · exact ⟨N5, rfl, fun m hm =>
          ⟨(hprops5 m hm).1, (hprops5 m hm).2.1, (hprops5 m hm).2.2.2⟩⟩
  · rw [if_neg hgf]
    cases hfind : (group S "GF" 1).find? fun m => m.match_no = 1 with
    | none => exact ⟨[], by simp, by simp⟩
    | some g1 =>
      dsimp only
      split
      · obtain ⟨N6, hN6, hprops6⟩ := safeCreate_exists S "GF" 1 2 c
          (some ((winnersInOrder (group S "L" (2 * n - 2))).headD 0))
        rw [hN6]
        exact ⟨N6, rfl, fun m hm =>
          ⟨(hprops6 m hm).1, (hprops6 m hm).2.1, (hprops6 m hm).2.2.2⟩⟩
      · exact ⟨[], by simp, by simp⟩

end DeFinalTailLemmas

section DeFinalTailIdem

theorem deFinalTail_of_no_gf1 (S : List Match) (c n : Nat)
    (h1 : allCompleted (group S "L" (2 * n - 2)))
    (hgf : ¬ group S "GF" 1 = [])
    (hfind : ((group S "GF" 1).find? fun m => m.match_no = 1) = none) :
    deFinalTail S c n = S := by
  unfold deFinalTail
  dsimp only
  rw [if_neg (not_not_intro h1), if_neg hgf, hfind]

theorem deFinalTail_of_blocked (S : List Match) (c n : Nat) {g1 : Match}
    (h1 : allCompleted (group S "L" (2 * n - 2)))
    (hgf : ¬ group S "GF" 1 = [])
    (hfind : ((group S "GF" 1).find? fun m => m.match_no = 1) = some g1)
    (hcond : ¬(pyLower g1.status = "completed" ∧
      g1.winner = some ((winnersInOrder (group S "L" (2 * n - 2))).headD 0) ∧
      ((group S "GF" 1).find? fun m => m.match_no = 2) = none)) :
    deFinalTail S c n = S := by
  unfold deFinalTail
  dsimp only
  rw [if_neg (not_not_intro h1), if_neg hgf, hfind]
  dsimp only
  rw [if_neg hcond]

theorem find?_ne_none_of_mem {xs : List Match} {g : Match} (hg : g ∈ xs) {k : Nat}
    (hk : g.match_no = k) : ¬ ((xs.find? fun m => m.match_no = k) = none) := by
  intro hnone
  have := List.find?_eq_none.mp hnone g hg
  simp [hk] at this

theorem deFinalTail_idem (X : List Match) (c n : Nat) :
    deFinalTail (deFinalTail X c n) c n = deFinalTail X c n := by
  by_cases h1 : allCompleted (group X "L" (2 * n - 2))
  case neg =>
    have hT : deFinalTail X c n = X := by
      unfold deFinalTail
      dsimp only
      rw [if_pos h1]
    rw [hT]
    exact hT
  by_cases hgf : group X "GF" 1 = []
  · -- run 1 creates a pending GF-01 row, so run 2's completion test fails
    have hnoc : ∀ m ∈ X, ¬(m.bracket = "GF" ∧ m.round_no = 1 ∧ m.match_no = 1) :=
      fun m hm hc => group_eq_nil.mp hgf m hm ⟨hc.1, hc.2.1⟩
    have hcre := safeCreate_no_conflict hnoc c
      (some ((winnersInOrder (group X "L" (2 * n - 2))).headD 0))
    obtain ⟨g, hgdef⟩ : ∃ g, mkMatch X "GF" 1 1 c
        (some ((winnersInOrder (group X "L" (2 * n - 2))).headD 0)) = g := ⟨_, rfl⟩
    rw [hgdef] at hcre
    have hgb : g.bracket = "GF" := by rw [← hgdef]; rfl
    have hgr : g.round_no = 1 := by rw [← hgdef]; rfl
    have hgm : g.match_no = 1 := by rw [← hgdef]; rfl
    have hgs : pyLower g.status = "pending" := by rw [← hgdef]; rfl
    have hg5 : group (X ++ [g]) "GF" 1 = [g] := group_singleton_of_nil hgf hgb hgr
    have hfind1 : ((group (X ++ [g]) "GF" 1).find? fun m => m.match_no = 1) = some g := by
      rw [hg5, List.find?_singleton]
      simp [hgm]
    have hnst : ¬ pyLower g.status = "completed" := by
      rw [hgs]
      decide
    have hLeq : group (X ++ [g]) "L" (2 * n - 2) = group X "L" (2 * n - 2) :=
      group_append_of_bracket_ne X (fun m hm => by
        rw [List.mem_singleton] at hm
        subst hm
        rw [hgb]
        decide) (2 * n - 2)
    have hT : deFinalTail X c n = X ++ [g] := by
      unfold deFinalTail
      dsimp only
      rw [if_neg (not_not_intro h1), if_pos hgf, hcre, hfind1]
      dsimp only
      rw [if_neg fun hcon => hnst hcon.1]
    rw [hT]
    exact deFinalTail_of_blocked (X ++ [g]) c n (hLeq ▸ h1)
      (by rw [hg5]; simp) hfind1 (fun hcon => hnst hcon.1)
  · -- GF round 1 already exists
    cases hfind : (group X "GF" 1).find? fun m => m.match_no = 1 with
    | none =>
      have hT : deFinalTail X c n = X := deFinalTail_of_no_gf1 X c n h1 hgf hfind
      rw [hT]
      exact hT
    | some g1 =>
      by_cases hcond : pyLower g1.status = "completed" ∧
          g1.winner = some ((winnersInOrder (group X "L" (2 * n - 2))).headD 0) ∧
          ((group X "GF" 1).find? fun m => m.match_no = 2) = none
      · -- run 1 creates the GF-02 reset; run 2 then finds it and stops
        have hnoc : ∀ m ∈ X, ¬(m.bracket = "GF" ∧ m.round_no = 1 ∧ m.match_no = 2) := by
          intro m hm hc
          have hmg : m ∈ group X "GF" 1 := mem_group.mpr ⟨hm, hc.1, hc.2.1⟩
          have := List.find?_eq_none.mp hcond.2.2 m hmg
          simp [hc.2.2] at this
        have hcre := safeCreate_no_conflict hnoc c
          (some ((winnersInOrder (group X "L" (2 * n - 2))).headD 0))
        obtain ⟨g2, hgdef⟩ : ∃ g2, mkMatch X "GF" 1 2 c
            (some ((winnersInOrder (group X "L" (2 * n - 2))).headD 0)) = g2 := ⟨_, rfl⟩
        rw [hgdef] at hcre
        have hgb : g2.bracket = "GF" := by rw [← hgdef]; rfl
        have hgr : g2.round_no = 1 := by rw [← hgdef]; rfl
        have hgm : g2.match_no = 2 := by rw [← hgdef]; rfl
        have hT : deFinalTail X c n = X ++ [g2] := by
          unfold deFinalTail
          dsimp only
          rw [if_neg (not_not_intro h1), if_neg hgf, hfind]
          dsimp only
          rw [if_pos hcond, hcre]
        have hLeq : group (X ++ [g2]) "L" (2 * n - 2) = group X "L" (2 * n - 2) :=
          group_append_of_bracket_ne X (fun m hm => by
            rw [List.mem_singleton] at hm
            subst hm
            rw [hgb]
            decide) (2 * n - 2)
        have hg2mem : g2 ∈ group (X ++ [g2]) "GF" 1 :=
          mem_group.mpr ⟨List.mem_append_right X (List.mem_singleton_self g2), hgb, hgr⟩
        have hgfne : ¬ group (X ++ [g2]) "GF" 1 = [] := by
          intro hnil
          rw [hnil] at hg2mem
          exact absurd hg2mem (List.not_mem_nil g2)
        have hne2 := find?_ne_none_of_mem hg2mem hgm
        rw [hT]
        cases hfind' : (group (X ++ [g2]) "GF" 1).find? fun m => m.match_no = 1 with
        | none => exact deFinalTail_of_no_gf1 (X ++ [g2]) c n (hLeq ▸ h1) hgfne hfind'
        | some g1' =>
          exact deFinalTail_of_blocked (X ++ [g2]) c n (hLeq ▸ h1) hgfne hfind'
            (fun hcon => hne2 hcon.2.2)
      · have hT : deFinalTail X c n = X :=
          deFinalTail_of_blocked X c n h1 hgf hfind hcond
        rw [hT]
        exact hT

end DeFinalTailIdem

section DeFinalLemmas

theorem deFinal_exists (ms : List Match) (n : Nat) :
    ∃ N, deFinal ms n = ms ++ N ∧
      ∀ m ∈ N, ((m.bracket = "L" ∧ m.round_no = 2 * n - 2) ∨
        (m.bracket = "GF" ∧ m.round_no = 1)) ∧ goodBye m := by
  unfold deFinal
  dsimp only
  split
  · exact ⟨[], by simp, by simp⟩
  split
  · exact ⟨[], by simp, by simp⟩
  split
  · exact ⟨[], by simp, by simp⟩
  by_cases hc : group ms "L" (2 * n - 2) = []
  · rw [if_pos hc]
    obtain ⟨N4, hN4, hprops4⟩ := safeCreate_exists ms "L" (2 * n - 2) 1
      ((winnersInOrder (group ms "L" (2 * n - 3))).headD 0)
      (some ((losersInOrder (group ms "W" n)).headD
        ((winnersInOrder (group ms "L" (2 * n - 3))).headD 0)))
    rw [hN4]
    obtain ⟨N5, hN5, hprops5⟩ := deFinalTail_exists (ms ++ N4)
      ((winnersInOrder (group ms "W" n)).headD 0) n
    rw [hN5, List.append_assoc]
    refine ⟨N4 ++ N5, rfl, ?_⟩
    intro m hm
    rcases List.mem_append.mp hm with hm | hm
    · exact ⟨Or.inl ⟨(hprops4 m hm).1, (hprops4 m hm).2.1⟩, (hprops4 m hm).2.2.2⟩
    · exact ⟨Or.inr ⟨(hprops5 m hm).1, (hprops5 m hm).2.1⟩, (hprops5 m hm).2.2⟩
  · rw [if_neg hc]
    obtain ⟨N5, hN5, hprops5⟩ := deFinalTail_exists ms
      ((winnersInOrder (group ms "W" n)).headD 0) n
    rw [hN5]
    exact ⟨N5, rfl, fun m hm =>
      ⟨Or.inr ⟨(hprops5 m hm).1, (hprops5 m hm).2.1⟩, (hprops5 m hm).2.2⟩⟩

theorem deFinal_idem (S : List Match) (n : Nat) (hn : 2 ≤ n) :
    deFinal (deFinal S n) n = deFinal S n := by
  by_cases h1 : allCompleted (group S "W" n)
  case neg =>
    have hT : deFinal S n = S := by
      unfold deFinal
      dsimp only
      rw [if_pos h1]
    rw [hT]
    exact hT
  by_cases h2 : group S "L" (2 * n - 3) = []
  · have hT : deFinal S n = S := by
      unfold deFinal
      dsimp only
      rw [if_neg (not_not_intro h1), if_pos h2]
    rw [hT]
    exact hT
  by_cases h3 : allCompleted (group S "L" (2 * n - 3))
  case neg =>
    have hT : deFinal S n = S := by
      unfold deFinal
      dsimp only
      rw [if_neg (not_not_intro h1), if_neg h2, if_pos h3]
    rw [hT]
    exact hT
  by_cases hc4 : group S "L" (2 * n - 2) = []
  · -- run 1 creates the pending Losers cross final, which blocks the tail
    have hnoc : ∀ m ∈ S, ¬(m.bracket = "L" ∧ m.round_no = 2 * n - 2 ∧ m.match_no = 1) :=
      fun m hm hc => group_eq_nil.mp hc4 m hm ⟨hc.1, hc.2.1⟩
    have hcre := safeCreate_no_conflict hnoc
      ((winnersInOrder (group S "L" (2 * n - 3))).headD 0)
      (some ((losersInOrder (group S "W" n)).headD
        ((winnersInOrder (group S "L" (2 * n - 3))).headD 0)))
    obtain ⟨g, hgdef⟩ : ∃ g, mkMatch S "L" (2 * n - 2) 1
        ((winnersInOrder (group S "L" (2 * n - 3))).headD 0)
        (some ((losersInOrder (group S "W" n)).headD
          ((winnersInOrder (group S "L" (2 * n - 3))).headD 0))) = g := ⟨_, rfl⟩
    rw [hgdef] at hcre
    have hgb : g.bracket = "L" := by rw [← hgdef]; rfl
    have hgr : g.round_no = 2 * n - 2 := by rw [← hgdef]; rfl
    have hgs : pyLower g.status = "pending" := by rw [← hgdef]; rfl
    have hg41 : group (S ++ [g]) "L" (2 * n - 2) = [g] := group_singleton_of_nil hc4 hgb hgr
    have hnotall : ¬ allCompleted (group (S ++ [g]) "L" (2 * n - 2)) := by
      rw [hg41]
      intro hcon
      have hx := hcon.2 g (List.mem_singleton_self g)
      rw [hgs] at hx
      exact absurd hx (by decide)
    have hTail : deFinalTail (S ++ [g]) ((winnersInOrder (group S "W" n)).headD 0) n =
        S ++ [g] := by
      unfold deFinalTail
      dsimp only
      rw [if_pos hnotall]
    have hT : deFinal S n = S ++ [g] := by
      unfold deFinal
      dsimp only
      rw [if_neg (not_not_intro h1), if_neg h2, if_neg (not_not_intro h3), if_pos hc4,
        hcre, hTail]
    have hWeq : group (S ++ [g]) "W" n = group S "W" n :=
      group_append_of_bracket_ne S (fun m hm => by
        rw [List.mem_singleton] at hm
        subst hm
        rw [hgb]
        decide) n
    have hL3eq : group (S ++ [g]) "L" (2 * n - 3) = group S "L" (2 * n - 3) :=
      group_append S "L" (2 * n - 3) (fun m hm hc => by
        rw [List.mem_singleton] at hm
        subst hm
        have hx := hc.2
        rw [hgr] at hx
        omega)
    have hc4ne : ¬ group (S ++ [g]) "L" (2 * n - 2) = [] := by
      rw [hg41]
      simp
    rw [hT]
    unfold deFinal
    dsimp only
    rw [hWeq, hL3eq, if_neg (not_not_intro h1), if_neg h2, if_neg (not_not_intro h3),
      if_neg hc4ne, hTail]
  · -- the cross final already exists: run 1 is the Grand-Finals tail only
    obtain ⟨N, hN, hNprops⟩ := deFinalTail_exists S
      ((winnersInOrder (group S "W" n)).headD 0) n
    have hT : deFinal S n = deFinalTail S ((winnersInOrder (group S "W" n)).headD 0) n := by
      unfold deFinal
      dsimp only
      rw [if_neg (not_not_intro h1), if_neg h2, if_neg (not_not_intro h3), if_neg hc4]
    have hNnW : ∀ m ∈ N, m.bracket ≠ "W" := fun m hm => by
      rw [(hNprops m hm).1]
      decide
    have hNnL : ∀ m ∈ N, m.bracket ≠ "L" := fun m hm => by
      rw [(hNprops m hm).1]
      decide
    have hWeq : group (S ++ N) "W" n = group S "W" n :=
      group_append_of_bracket_ne S hNnW n
    have hL3eq : group (S ++ N) "L" (2 * n - 3) = group S "L" (2 * n - 3) :=
      group_append_of_bracket_ne S hNnL (2 * n - 3)
    have hL2eq : group (S ++ N) "L" (2 * n - 2) = group S "L" (2 * n - 2) :=
      group_append_of_bracket_ne S hNnL (2 * n - 2)
    rw [hT, hN]
    unfold deFinal
    dsimp only
    rw [hWeq, hL3eq, hL2eq, if_neg (not_not_intro h1), if_neg h2,
      if_neg (not_not_intro h3), if_neg hc4, ← hN]
    exact deFinalTail_idem S ((winnersInOrder (group S "W" n)).headD 0) n

end DeFinalLemmas

section AdvanceDoubleElim

theorem intLog2F_ge_one : ∀ (f n : Nat), 1 ≤ f → 2 ≤ n → 1 ≤ intLog2F f n
  | 0, _, h, _ => absurd h (by omega)
  | f + 1, n, _, h2 => by
    unfold intLog2F
    rw [if_pos h2]
    omega

theorem int_log2_ge_two {b : Nat} (hb : 4 ≤ b) : 2 ≤ int_log2 b := by
  unfold int_log2
  obtain ⟨f, hf⟩ : ∃ f, b = f + 1 := ⟨b - 1, by omega⟩
  subst hf
  unfold intLog2F
  rw [if_pos (by omega)]
  have := intLog2F_ge_one f ((f + 1) / 2) (by omega) (by omega)
  omega

theorem advanceDE_idem (ms : List Match) :
    advanceDoubleElim (advanceDoubleElim ms) = advanceDoubleElim ms := by
  have hSE := advSE_idem ms
  by_cases hwb : group (advanceSingleElim ms) "W" 1 = []
  · have hT : advanceDoubleElim ms = advanceSingleElim ms := by
      unfold advanceDoubleElim
      dsimp only
      rw [if_pos hwb]
    rw [hT]
    unfold advanceDoubleElim
    dsimp only
    rw [hSE, if_pos hwb]
  by_cases hsz : 2 * (group (advanceSingleElim ms) "W" 1).length ≤ 2
  · have hT : advanceDoubleElim ms = advanceSingleElim ms := by
      unfold advanceDoubleElim
      dsimp only
      rw [if_neg hwb, if_pos hsz]
    rw [hT]
    unfold advanceDoubleElim
    dsimp only
    rw [hSE, if_neg hwb, if_pos hsz]
  · -- the full double-elimination pass
    have hn2 : 2 ≤ int_log2 (2 * (group (advanceSingleElim ms) "W" 1).length) :=
      int_log2_ge_two (by omega)
    -- the Losers round 1 step of run 1, and run 2's version of it being a no-op
    have hkey : ∃ E2,
        (if allCompleted (group (advanceSingleElim ms) "W" 1) ∧
            group (advanceSingleElim ms) "L" 1 = [] then
          createRoundFromPairs (advanceSingleElim ms) "L" 1
            (losersInOrder (group (advanceSingleElim ms) "W" 1))
        else advanceSingleElim ms) = advanceSingleElim ms ++ E2 ∧
        (∀ m ∈ E2, m.bracket = "L" ∧ m.round_no = 1 ∧ goodBye m) ∧
        ∀ T : List Match,
          group T "L" 1 = group (advanceSingleElim ms ++ E2) "L" 1 →
          (if allCompleted (group (advanceSingleElim ms) "W" 1) ∧ group T "L" 1 = [] then
            createRoundFromPairs T "L" 1
              (losersInOrder (group (advanceSingleElim ms) "W" 1))
          else T) = T := by
      by_cases hc : allCompleted (group (advanceSingleElim ms) "W" 1) ∧
          group (advanceSingleElim ms) "L" 1 = []
      · obtain ⟨E2, hE2eq, hlen2, hE2props⟩ :=
          createRoundFromPairs_no_conflict hc.2
            (losersInOrder (group (advanceSingleElim ms) "W" 1))
        refine ⟨E2, by rw [if_pos hc, hE2eq], hE2props, ?_⟩
        intro T hTL1
        by_cases hlo : losersInOrder (group (advanceSingleElim ms) "W" 1) = []
        · have hE2nil : E2 = [] := by
            rw [hlo] at hlen2
            exact List.length_eq_zero.mp (by simpa using hlen2)
          subst hE2nil
          rw [if_pos ⟨hc.1, by rw [hTL1]; simpa using hc.2⟩]
          unfold createRoundFromPairs
          rw [if_pos hlo]
        · have hE2ne : E2 ≠ [] := by
            intro hnil
            rw [hnil] at hlen2
            have hx := List.length_pos.mpr hlo
            simp at hlen2
            omega
          obtain ⟨e, he⟩ := List.exists_mem_of_ne_nil E2 hE2ne
          refine if_neg fun hcon => ?_
          have hx := hcon.2
          rw [hTL1] at hx
          exact group_ne_nil_of_mem (List.mem_append_right _ he)
            (hE2props e he).1 (hE2props e he).2.1 hx
      · refine ⟨[], by rw [if_neg hc]; simp, by simp, ?_⟩
        intro T hTL1
        refine if_neg fun hcon => hc ⟨hcon.1, ?_⟩
        have hx := hcon.2
        rw [hTL1] at hx
        simpa using hx
    obtain ⟨E2, hms2, hE2props, hrun2⟩ := hkey
    obtain ⟨E3, hE3eq, hE3props⟩ :=
      deLoopF_exists (int_log2 (2 * (group (advanceSingleElim ms) "W" 1).length) - 2)
        (advanceSingleElim ms ++ E2) 2
    obtain ⟨E4, hE4eq, hE4props⟩ :=
      deFinal_exists
        (deLoopF (int_log2 (2 * (group (advanceSingleElim ms) "W" 1).length) - 2)
          (advanceSingleElim ms ++ E2) 2)
        (int_log2 (2 * (group (advanceSingleElim ms) "W" 1).length))
    have hTeq : deFinal
        (deLoopF (int_log2 (2 * (group (advanceSingleElim ms) "W" 1).length) - 2)
          (advanceSingleElim ms ++ E2) 2)
        (int_log2 (2 * (group (advanceSingleElim ms) "W" 1).length)) =
        advanceSingleElim ms ++ E2 ++ E3 ++ E4 := by
      rw [hE4eq, hE3eq]
    have hT : advanceDoubleElim ms = deFinal
        (deLoopF (int_log2 (2 * (group (advanceSingleElim ms) "W" 1).length) - 2)
          (advanceSingleElim ms ++ E2) 2)
        (int_log2 (2 * (group (advanceSingleElim ms) "W" 1).length)) := by
      unfold advanceDoubleElim
      dsimp only
      rw [if_neg hwb, if_neg hsz, hms2]
    rw [hT, hTeq]
    -- run 2 on the run-1 value
    have hE2nonW : ∀ m ∈ E2, m.bracket ≠ "W" := fun m hm => by
      rw [(hE2props m hm).1]
      decide
    have hE3nonW : ∀ m ∈ E3, m.bracket ≠ "W" := fun m hm => by
      rw [(hE3props m hm).1]
      decide
    have hE4nonW : ∀ m ∈ E4, m.bracket ≠ "W" := fun m hm => by
      rcases (hE4props m hm).1 with ⟨hb, _⟩ | ⟨hb, _⟩ <;> rw [hb] <;> decide
    have hadvT : advanceSingleElim (advanceSingleElim ms ++ E2 ++ E3 ++ E4) =
        advanceSingleElim ms ++ E2 ++ E3 ++ E4 := by
      have h := advSE_stable_append (advanceSingleElim ms) (E2 ++ (E3 ++ E4)) hSE
        (fun m hm => by
          rcases List.mem_append.mp hm with hm | hm
          · exact hE2nonW m hm
          rcases List.mem_append.mp hm with hm | hm
          · exact hE3nonW m hm
          · exact hE4nonW m hm)
      simpa [List.append_assoc] using h
    have hgW : group (advanceSingleElim ms ++ E2 ++ E3 ++ E4) "W" 1 =
        group (advanceSingleElim ms) "W" 1 := by
      rw [group_append_of_bracket_ne _ hE4nonW 1, group_append_of_bracket_ne _ hE3nonW 1,
        group_append_of_bracket_ne _ hE2nonW 1]
    have hgL1 : group (advanceSingleElim ms ++ E2 ++ E3 ++ E4) "L" 1 =
        group (advanceSingleElim ms ++ E2) "L" 1 := by
      rw [group_append (advanceSingleElim ms ++ E2 ++ E3) "L" 1 (fun m hm hcon => by
          rcases (hE4props m hm).1 with ⟨_, hr⟩ | ⟨hb, _⟩
          · have hx := hcon.2
            rw [hr] at hx
            omega
          · rw [hb] at hcon
            exact absurd hcon.1 (by decide)),
        group_append (advanceSingleElim ms ++ E2) "L" 1 (fun m hm hcon => by
          have hx := (hE3props m hm).2.1
          have hy := hcon.2
          omega)]
    have hE4st : ∀ m ∈ E4, m.bracket ≠ "W" ∧ (m.bracket = "L" →
        2 * int_log2 (2 * (group (advanceSingleElim ms) "W" 1).length) - 2 ≤ m.round_no) :=
      fun m hm => ⟨hE4nonW m hm, fun hl => by
        rcases (hE4props m hm).1 with ⟨_, hr⟩ | ⟨hb, _⟩
        · omega
        · rw [hb] at hl
          exact absurd hl (by decide)⟩
    unfold advanceDoubleElim
    dsimp only
    rw [hadvT, hgW, if_neg hwb, if_neg hsz,
      hrun2 (advanceSingleElim ms ++ E2 ++ E3 ++ E4) hgL1]
    rw [show advanceSingleElim ms ++ E2 ++ E3 ++ E4 =
        deLoopF (int_log2 (2 * (group (advanceSingleElim ms) "W" 1).length) - 2)
          (advanceSingleElim ms ++ E2) 2 ++ E4 from by rw [hE3eq]]
    rw [deLoopF_stable (int_log2 (2 * (group (advanceSingleElim ms) "W" 1).length) - 2)
      (advanceSingleElim ms ++ E2) E4 2
      (int_log2 (2 * (group (advanceSingleElim ms) "W" 1).length))
      (by omega) (by omega) hE4st]
    rw [← hE4eq]
    exact deFinal_idem _ _ hn2

end AdvanceDoubleElim

section ByePreservation

theorem advanceDE_exists (ms : List Match) :
    ∃ N, advanceDoubleElim ms = ms ++ N ∧ ∀ m ∈ N, goodBye m := by
  obtain ⟨E1, hE1, hE1props⟩ := advSE_exists ms
  unfold advanceDoubleElim
  dsimp only
  rw [hE1]
  split
  · exact ⟨E1, rfl, fun m hm => (hE1props m hm).2.2⟩
  split
  · exact ⟨E1, rfl, fun m hm => (hE1props m hm).2.2⟩
  · have hms2 : ∃ E2, (if allCompleted (group (ms ++ E1) "W" 1) ∧
          group (ms ++ E1) "L" 1 = [] then
        createRoundFromPairs (ms ++ E1) "L" 1 (losersInOrder (group (ms ++ E1) "W" 1))
      else ms ++ E1) = (ms ++ E1) ++ E2 ∧ ∀ m ∈ E2, goodBye m := by
      split
      · obtain ⟨E2, hE2, hE2p⟩ := createRoundFromPairs_exists (ms ++ E1) "L" 1
          (losersInOrder (group (ms ++ E1) "W" 1))
        exact ⟨E2, hE2, fun m hm => (hE2p m hm).2.2⟩
      · exact ⟨[], by simp, by simp⟩
    obtain ⟨E2, hE2eq, hE2good⟩ := hms2
    rw [hE2eq]
    obtain ⟨E3, hE3eq, hE3p⟩ :=
      deLoopF_exists (int_log2 (2 * (group (ms ++ E1) "W" 1).length) - 2)
        ((ms ++ E1) ++ E2) 2
    rw [hE3eq]
    obtain ⟨E4, hE4eq, hE4p⟩ := deFinal_exists (((ms ++ E1) ++ E2) ++ E3)
      (int_log2 (2 * (group (ms ++ E1) "W" 1).length))
    rw [hE4eq]
    refine ⟨E1 ++ E2 ++ E3 ++ E4, by simp [List.append_assoc], ?_⟩
    intro m hm
    rcases List.mem_append.mp hm with hm | hm
    rotate_left
    · exact (hE4p m hm).2
    rcases List.mem_append.mp hm with hm | hm
    rotate_left
    · exact (hE3p m hm).2.2
    rcases List.mem_append.mp hm with hm | hm
    · exact (hE1props m hm).2.2
    · exact hE2good m hm

theorem mem_le_maxId {m : Match} : ∀ {ms : List Match}, m ∈ ms → m.id ≤ maxId ms := by
  intro ms
  induction ms with
  | nil => intro hm; cases hm
  | cons x tl ih =>
    intro hm
    have hx : maxId (x :: tl) = max x.id (maxId tl) := rfl
    rcases List.mem_cons.mp hm with h | h
    · subst h
      rw [hx]
      omega
    · have := ih h
      rw [hx]
      omega

theorem map_id_of_eq {f : Match → Match} :
    ∀ {ms : List Match}, (∀ m ∈ ms, f m = m) → ms.map f = ms := by
  intro ms
  induction ms with
  | nil => intro _; rfl
  | cons x tl ih =>
    intro h
    rw [List.map_cons, h x (List.mem_cons_self x tl),
      ih fun m hm => h m (List.mem_cons_of_mem x hm)]

theorem setByeWinner_fresh (ms : List Match) (row : Match) (mid t1 : Nat)
    (hmid : row.id = mid) (hfresh : ∀ m ∈ ms, ¬ m.id = mid) :
    setByeWinner (ms ++ [row]) mid t1 =
      ms ++ [{ row with status := "completed", winner := some t1, loser := none }] := by
  unfold setByeWinner
  rw [List.map_append]
  congr 1
  · exact map_id_of_eq fun m hm => if_neg (hfresh m hm)
  · rw [List.map_cons, List.map_nil, if_pos hmid]

theorem createW1_good : ∀ (pairs : List (Nat × Option Nat)) (ms : List Match) (mno : Nat),
    (∀ m ∈ ms, goodBye m) → ∀ m ∈ createW1 ms pairs mno, goodBye m
  | [], _, _, hgood => hgood
  | (t1, t2) :: rest, ms, mno, hgood => by
    have hfresh : ∀ m ∈ ms, ¬ m.id = nextId ms := by
      intro m hm heq
      have := mem_le_maxId hm
      unfold nextId at heq
      omega
    have hstep : ∀ m ∈ (if t2 = none then
        setByeWinner (ms ++ [{ id := nextId ms, bracket := "W", round_no := 1,
                               match_no := mno, team1 := t1, team2 := t2,
                               status := "pending", winner := none, loser := none }])
          (nextId ms) t1
      else ms ++ [{ id := nextId ms, bracket := "W", round_no := 1, match_no := mno,
                    team1 := t1, team2 := t2, status := "pending",
                    winner := none, loser := none }]), goodBye m := by
      intro m hm
      by_cases ht2 : t2 = none
      · rw [if_pos ht2, setByeWinner_fresh ms _ (nextId ms) t1 rfl hfresh] at hm
        rcases List.mem_append.mp hm with h | h
        · exact hgood m h
        · rw [List.mem_singleton] at h
          subst h
          refine fun _ => ⟨?_, rfl, rfl⟩
          show pyLower "completed" = "completed"
          decide
      · rw [if_neg ht2] at hm
        rcases List.mem_append.mp hm with h | h
        · exact hgood m h
        · rw [List.mem_singleton] at h
          subst h
          exact fun hc => absurd hc ht2
    exact createW1_good rest _ (mno + 1) hstep

end ByePreservation

section ClaimC1C4

/-- C1: the Advancement Engine is idempotent.  A second `advance` call on
the state left by a first one, with no intervening result report, returns
the identical error status and the identical match set (no new matches, no
status changes) — for every format string and every starting state. -/
theorem advance_idempotent (fmt : String) (ms : List Match) :
    advance fmt (advance fmt ms).2 = advance fmt ms := by
  by_cases h1 : pyLower fmt = "single_elim"
  · have he : advance fmt ms = (none, advanceSingleElim ms) := by
      unfold advance
      rw [if_pos h1]
    rw [he]
    show advance fmt (advanceSingleElim ms) = (none, advanceSingleElim ms)
    unfold advance
    rw [if_pos h1, advSE_idem]
  by_cases h2 : pyLower fmt = "double_elim"
  · have he : advance fmt ms = (none, advanceDoubleElim ms) := by
      unfold advance
      rw [if_neg h1, if_pos h2]
    rw [he]
    show advance fmt (advanceDoubleElim ms) = (none, advanceDoubleElim ms)
    unfold advance
    rw [if_neg h1, if_pos h2, advanceDE_idem]
  · have he : advance fmt ms = (some "Unsupported event format.", ms) := by
      unfold advance
      rw [if_neg h1, if_neg h2]
    rw [he]
    exact he

/-- C4: a newly created match whose second slot is a BYE is resolved at
creation: `_safe_create_match` only ever adds `goodBye` rows (completed,
sole occupant as winner, no loser); an `advance` pass keeps every match
`goodBye` when the input state was; and `createBracket` on a fresh event
leaves only `goodBye` matches — so no Pending BYE survives an outward
call. -/
theorem bye_matches_auto_resolved :
    (∀ (ms : List Match) (b : String) (r mno t1 : Nat) (t2 : Option Nat),
      ∀ m ∈ safeCreate ms b r mno t1 t2, m ∈ ms ∨ goodBye m) ∧
    (∀ (fmt : String) (ms : List Match), (∀ m ∈ ms, goodBye m) →
      ∀ m ∈ (advance fmt ms).2, goodBye m) ∧
    (∀ (fmt : String) (teams : List (Option Nat × Nat)),
      ∀ m ∈ (create_bracket fmt teams []).2, goodBye m) := by
  have hadv : ∀ (fmt : String) (ms : List Match), (∀ m ∈ ms, goodBye m) →
      ∀ m ∈ (advance fmt ms).2, goodBye m := by
    intro fmt ms hgood m hm
    unfold advance at hm
    split at hm
    · obtain ⟨N, hN, hNp⟩ := advSE_exists ms
      dsimp only at hm
      rw [hN] at hm
      rcases List.mem_append.mp hm with h | h
      · exact hgood m h
      · exact (hNp m h).2.2
    split at hm
    · obtain ⟨N, hN, hNp⟩ := advanceDE_exists ms
      dsimp only at hm
      rw [hN] at hm
      rcases List.mem_append.mp hm with h | h
      · exact hgood m h
      · exact hNp m h
    · exact hgood m hm
  refine ⟨?_, hadv, ?_⟩
  · intro ms b r mno t1 t2 m hm
    unfold safeCreate at hm
    split at hm
    · exact Or.inl hm
    · rcases List.mem_append.mp hm with h | h
      · exact Or.inl h
      · rw [List.mem_singleton] at h
        subst h
        exact Or.inr (mkMatch_goodBye ms b r mno t1 t2)
  · intro fmt teams m hm
    unfold create_bracket at hm
    rw [if_neg (show ¬(([] : List Match) ≠ []) from fun hc => hc rfl)] at hm
    dsimp only at hm
    split at hm
    · simp at hm
    split at hm
    · simp at hm
    split at hm
    · simp at hm
    case _ pairs hpairs =>
      have hgood1 : ∀ x ∈ (advance fmt (createW1 [] pairs 1)).2, goodBye x :=
        hadv fmt (createW1 [] pairs 1)
          (createW1_good pairs [] 1 fun x hx => absurd hx (List.not_mem_nil x))
      rcases h5 : advance fmt (createW1 [] pairs 1) with ⟨err, ms2⟩
      rw [h5] at hm hgood1
      dsimp only at hgood1
      cases err with
      | none =>
        dsimp only at hm
        split at hm
        · exact hgood1 m hm
        · exact hgood1 m hm
      | some e =>
        dsimp only at hm
        exact hgood1 m hm

/-- Witness for C4: the reachable 7-entrant double-elim state (which
contains both a Winners and a Losers BYE) satisfies the invariant, and the
theorem applied to it shows a further advance pass keeps it. -/
theorem bye_matches_auto_resolved_witness :
    (∀ m ∈ lbByeState, goodBye m) ∧
      ∀ m ∈ (advance "double_elim" lbByeState).2, goodBye m :=
  ⟨by decide, bye_matches_auto_resolved.2.1 "double_elim" lbByeState (by decide)⟩

end ClaimC1C4
